import Mathlib

/-!
Verification development for the scout-core-engine live-betting signal engine.

The development shallowly embeds the three core components the specification
describes — the minute normalizer (`sportmonks-adapter.ts`,
`sportmonks-client.ts`), the signal lifecycle manager
(`active-signal-service.ts`) and the reinforcement-learning confidence agent
(`rl-agent.ts`) — as executable Lean functions, and proves or refutes the
specification's testable properties against them.

Conventions: JS numbers that only ever hold integral millisecond timestamps or
minute counts are modelled as `Int`; JS numbers that undergo fractional
arithmetic (confidences, rewards, TTL seconds) are modelled as `Rat`.
`Math.floor(a / b)` on integers is `Int.fdiv`.  JS `Map` objects are modelled
as insertion-ordered association lists (`Map.set` replaces in place, otherwise
appends, matching JS iteration order).  Environment-variable configuration is
modelled at its default value (all fallbacks enabled, cache TTL 90 s).
-/

namespace ScoutCore

/-- JS truthiness test on an optional number (`undefined` and `0` are falsy),
as used by `periods?.data?.[0]?.minute && ...` style guards. -/
def truthyNum (o : Option Int) : Option Int :=
  o.bind (fun v => if v = 0 then none else some v)

/-- JS `a || b` for an optional string `a` (empty string is falsy). -/
def jsOrStr (a : Option String) (b : String) : String :=
  match a with
  | some s => if s = "" then b else s
  | none => b

/-- One entry of the minute caches: a minute value together with the epoch-ms
timestamp recorded when it was stored  (`{ minute, timestamp }` in the source). -/
structure CacheEntry where
  minute : Int
  timestamp : Int
deriving Repr, DecidableEq

namespace SportmonksAdapter

/-- The fields of a raw SportMonks match payload that minute extraction in
`sportmonks-adapter.ts` reads.  `Option` models absent/`undefined` JS
properties; `eventMinutes` lists the `minute` property of each entry of
`m.events.data` in order; `startingAtTs` is `m.time.starting_at.timestamp`
(seconds). -/
structure SmPayload where
  timeMinute : Option Int := none
  timeMinutes : Option Int := none
  timeCurrentMinute : Option Int := none
  liveMinute : Option Int := none
  periodsDataMinute : Option Int := none
  periodsFirstMinute : Option Int := none
  eventMinutes : List (Option Int) := []
  startingAtTs : Option Int := none
  statusName : Option String := none
  timeStatus : Option String := none
deriving Repr, DecidableEq

/-- Step 4 of `extractMinute`: scan the first 5 events for a numeric
`minute > 0`. -/
def firstEventMinute (evs : List (Option Int)) : Option Int :=
  (evs.take 5).findSome? (fun e => e.bind (fun v => if v > 0 then some v else none))

/-- The live statuses accepted by the `starting_at` fallback of
`extractMinute`. -/
def liveStatuses : List String :=
  ["LIVE", "INPLAY", "1ST_HALF", "2ND_HALF", "ET", "AET", "PEN"]

/-- Step 5 of `extractMinute` (`USE_STARTING_AT_FALLBACK` at its default,
enabled): estimate the minute from the kickoff timestamp, clamped to
`[0, 130]`, when the status is live-like, empty or `UNDEFINED`.  `nowSec` is
`Math.floor(Date.now() / 1000)`. -/
def startingAtFallback (m : SmPayload) (nowSec : Int) : Int :=
  let status := (jsOrStr m.statusName (jsOrStr m.timeStatus "")).toUpper
  match m.startingAtTs with
  | none => 0
  | some startTs =>
    if startTs != 0 &&
        (liveStatuses.contains status || status == "" || status == "UNDEFINED") then
      let elapsed := max 0 ((nowSec - startTs).fdiv 60)
      let calculatedMinute := min 130 elapsed
      if calculatedMinute > 0 then calculatedMinute else 0
    else 0

/-- `extractMinute` of `sportmonks-adapter.ts` (lines 23–88): the layered
extraction chain — explicit minute fields, nested variants, periods (with JS
truthiness, so a stored `0` is skipped), the first positive minute among the
first five events, then the kickoff-timestamp fallback, else `0`. -/
def extractMinute (m : SmPayload) (nowSec : Int) : Int :=
  match m.timeMinute with
  | some v => v
  | none =>
    match m.timeMinutes with
    | some v => v
    | none =>
      match m.timeCurrentMinute with
      | some v => v
      | none =>
        match m.liveMinute with
        | some v => v
        | none =>
          match truthyNum m.periodsDataMinute with
          | some v => v
          | none =>
            match truthyNum m.periodsFirstMinute with
            | some v => v
            | none =>
              match firstEventMinute m.eventMinutes with
              | some v => v
              | none => startingAtFallback m nowSec

/-- `LAST_MINUTE_CACHE_SEC` at its default value (90 s). -/
def LAST_MINUTE_CACHE_SEC : Int := 90

/-- `STALE_MINUTE_THRESHOLD_MS` (30 000 ms) of `sportmonks-adapter.ts`. -/
def STALE_MINUTE_THRESHOLD_MS : Int := 30000

/-- `applyLastMinuteCache` of `sportmonks-adapter.ts` (lines 119–149), with
the module-level `lastMinuteCache` entry for the match passed and returned
explicitly.  Returns the minute to report and the new cache entry.  A positive
minute updates the cache only when it strictly exceeds the cached minute; a
non-positive minute reads the cache and inflates it by the elapsed whole
minutes while its age is below the TTL. -/
def applyLastMinuteCache (cache : Option CacheEntry) (minute : Int) (now : Int) :
    Int × Option CacheEntry :=
  if minute > 0 then
    match cache with
    | none => (minute, some ⟨minute, now⟩)
    | some c => if minute > c.minute then (minute, some ⟨minute, now⟩) else (minute, some c)
  else
    match cache with
    | none => (0, none)
    | some c =>
      let elapsedMinutes := (now - c.timestamp).fdiv 60000
      let inflatedMinute := min 130 (c.minute + max 0 elapsedMinutes)
      if now - c.timestamp < LAST_MINUTE_CACHE_SEC * 1000 then (inflatedMinute, some c)
      else (0, some c)

/-- The per-match state of the minute normalizer: the module-level maps
`lastMinuteCache`, `lastNormalizedMinute` and `lastRawMinuteChange` of
`sportmonks-adapter.ts`, restricted to a single `matchId` (the maps are keyed
by match and entries for distinct matches never interact). -/
structure MinuteState where
  cache : Option CacheEntry := none
  normPrev : Option CacheEntry := none
  rawChange : Option CacheEntry := none
deriving Repr, DecidableEq

/-- Stale tracking of `normalizeSmMatch` (`lastRawMinuteChange` update, lines
159–169): record the raw minute when it changes, otherwise flag the match as
stale once the raw minute has stayed identical and positive for longer than
the threshold.  Returns the new tracker entry and the `isStale` flag. -/
def staleTrack (rawChange : Option CacheEntry) (rawMinute now : Int) :
    Option CacheEntry × Bool :=
  match rawChange with
  | none => (some ⟨rawMinute, now⟩, false)
  | some rc =>
    if rc.minute ≠ rawMinute then (some ⟨rawMinute, now⟩, false)
    else if rawMinute > 0 ∧ now - rc.timestamp > STALE_MINUTE_THRESHOLD_MS then
      (some rc, true)
    else (some rc, false)

/-- The override guard of `normalizeSmMatch` (lines 174–194): when the raw
minute is 0 or stale and a positive normalized minute was previously shown,
report the maximum of the cache-based candidate and an elapsed-time projection
from that previous value; otherwise report the cache result (or the raw
minute when the cache produced nothing positive). -/
def guardMinute (normPrev : Option CacheEntry) (rawMinute cachedMinute : Int)
    (isStale : Bool) (now : Int) : Int :=
  match normPrev with
  | some p =>
    if (rawMinute = 0 ∨ isStale = true) ∧ p.minute > 0 then
      let elapsedMinutes := (now - p.timestamp).fdiv 60000
      let inflatedFromPrev := min 130 (p.minute + elapsedMinutes)
      max cachedMinute inflatedFromPrev
    else if cachedMinute > 0 then cachedMinute
    else rawMinute
  | none => if cachedMinute > 0 then cachedMinute else rawMinute

/-- The `lastNormalizedMinute` update discipline of `normalizeSmMatch` (lines
196–206): the entry (minute and timestamp) moves only when the normalized
minute strictly increases; an equal or lower positive minute keeps the old
entry, and a non-positive minute leaves the tracker untouched. -/
def normPrevUpdate (normPrev : Option CacheEntry) (normalizedMinute now : Int) :
    Option CacheEntry :=
  if normalizedMinute > 0 then
    match normPrev with
    | none => some ⟨normalizedMinute, now⟩
    | some p =>
      if normalizedMinute > p.minute then some ⟨normalizedMinute, now⟩ else some p
  else normPrev

/-- The minute-normalization core of `normalizeSmMatch`
(`sportmonks-adapter.ts` lines 152–236) for one match, taking the already
extracted raw minute: stale tracking, cache fallback, the override guard, and
the `lastNormalizedMinute` update discipline.  Returns the normalized minute
and the updated per-match state.  `now` is epoch ms. -/
def normalizeStep (s : MinuteState) (rawMinute : Int) (now : Int) : Int × MinuteState :=
  let rcIsStale := staleTrack s.rawChange rawMinute now
  let cm := applyLastMinuteCache s.cache rawMinute now
  let normalizedMinute := guardMinute s.normPrev rawMinute cm.1 rcIsStale.2 now
  (normalizedMinute, ⟨cm.2, normPrevUpdate s.normPrev normalizedMinute now, rcIsStale.1⟩)

/-- The `minute` field computed by `normalizeSmMatch` for a raw payload:
extraction (`extractMinute` uses `Date.now()/1000` seconds) followed by
`normalizeStep` (which uses `Date.now()` ms). -/
def normalizeSmMatch (s : MinuteState) (m : SmPayload) (nowMs : Int) : Int × MinuteState :=
  normalizeStep s (extractMinute m (nowMs.fdiv 1000)) nowMs

/-- Minutes reported by a sequence of `normalizeSmMatch` calls for one match,
given the payload and wall-clock ms of each poll. -/
def runSm (s : MinuteState) : List (SmPayload × Int) → List Int
  | [] => []
  | (p, now) :: rest =>
    let r := normalizeSmMatch s p now
    r.1 :: runSm r.2 rest

/-- Final per-match state after a sequence of `normalizeSmMatch` calls. -/
def runSmState (s : MinuteState) : List (SmPayload × Int) → MinuteState
  | [] => s
  | (p, now) :: rest => runSmState (normalizeSmMatch s p now).2 rest

/-- A payload whose only minute information is an explicit `time.minute`. -/
def payloadMinute (v : Int) : SmPayload := { timeMinute := some v }

/-- A payload carrying no minute information at all (extraction yields 0). -/
def payloadEmpty : SmPayload := {}

end SportmonksAdapter

end ScoutCore

namespace ScoutCore

namespace SportmonksAdapter

/-- C1: the monotone-minute claim fails on `normalizeSmMatch`.  Polling one
match with raw minutes 50, 0, 50 at epoch-ms times 1 000 000, 1 080 000 and
1 085 000 — all three calls within the 90 s cache-TTL window counted from the
only cache increase, at the first call, as the final conjuncts record — returns
the minutes 50, 51, 50: the dropout poll is inflated to 51 by the override
guard, and the returning raw 50 then bypasses the guard and regresses below the
previously reported value. -/
theorem normalizeSmMatch_minute_regresses :
    runSm {} [(payloadMinute 50, 1000000), (payloadEmpty, 1080000), (payloadMinute 50, 1085000)]
      = [50, 51, 50] ∧
    (runSmState {} [(payloadMinute 50, 1000000), (payloadEmpty, 1080000)]).cache
      = some ⟨50, 1000000⟩ ∧
    ((1085000 : Int) - 1000000 < LAST_MINUTE_CACHE_SEC * 1000) ∧
    ¬ ((51 : Int) ≤ 50) := by
  refine ⟨?_, ?_, ?_, ?_⟩ <;> decide

/-- Payloads whose explicitly reported minute fields are all at most 130. -/
def PayloadCapped (m : SmPayload) : Prop :=
  (∀ v ∈ m.timeMinute, v ≤ 130) ∧ (∀ v ∈ m.timeMinutes, v ≤ 130) ∧
  (∀ v ∈ m.timeCurrentMinute, v ≤ 130) ∧ (∀ v ∈ m.liveMinute, v ≤ 130) ∧
  (∀ v ∈ m.periodsDataMinute, v ≤ 130) ∧ (∀ v ∈ m.periodsFirstMinute, v ≤ 130) ∧
  (∀ e ∈ m.eventMinutes, ∀ v ∈ e, v ≤ 130)

/-- Normalizer states whose cached and previously-normalized minutes are at
most 130. -/
def StateCapped (s : MinuteState) : Prop :=
  (∀ c ∈ s.cache, c.minute ≤ 130) ∧ (∀ c ∈ s.normPrev, c.minute ≤ 130)

theorem findSome?_mem {α β : Type} (f : α → Option β) :
    ∀ (l : List α) (b : β), l.findSome? f = some b → ∃ a ∈ l, f a = some b := by
  intro l
  induction l with
  | nil => intro b h; simp [List.findSome?] at h
  | cons x xs ih =>
    intro b h
    rw [List.findSome?_cons] at h
    cases hx : f x with
    | some v => rw [hx] at h; exact ⟨x, by simp, by rw [hx, ← h]⟩
    | none =>
      rw [hx] at h
      obtain ⟨a, ha, hfa⟩ := ih b h
      exact ⟨a, by simp [ha], hfa⟩

theorem firstEventMinute_le (evs : List (Option Int))
    (h : ∀ e ∈ evs, ∀ v ∈ e, v ≤ 130) :
    ∀ v, firstEventMinute evs = some v → v ≤ 130 := by
  intro v hv
  obtain ⟨e, he, hfe⟩ := findSome?_mem _ _ _ hv
  cases e with
  | none => simp at hfe
  | some w =>
    have hw : w ≤ 130 := h (some w) (List.mem_of_mem_take he) w rfl
    simp only [Option.some_bind] at hfe
    by_cases hpos : w > 0
    · rw [if_pos hpos] at hfe
      injection hfe with hfe
      omega
    · rw [if_neg hpos] at hfe
      exact absurd hfe (by simp)

theorem startingAtFallback_le (m : SmPayload) (nowSec : Int) :
    startingAtFallback m nowSec ≤ 130 := by
  unfold startingAtFallback
  cases m.startingAtTs with
  | none => norm_num
  | some startTs =>
    dsimp only
    split
    · split
      · exact min_le_left _ _
      · norm_num
    · norm_num

/-- `extractMinute` stays at most 130 on capped payloads: every explicit field
passes through unchanged (hence the hypothesis), and the kickoff fallback is
clamped by `min 130`. -/
theorem extractMinute_le (m : SmPayload) (nowSec : Int) (h : PayloadCapped m) :
    extractMinute m nowSec ≤ 130 := by
  obtain ⟨h1, h2, h3, h4, h5, h6, h7⟩ := h
  unfold extractMinute
  cases hm : m.timeMinute with
  | some v => exact h1 v (by simp [hm])
  | none =>
  cases hm2 : m.timeMinutes with
  | some v => exact h2 v (by simp [hm2])
  | none =>
  cases hm3 : m.timeCurrentMinute with
  | some v => exact h3 v (by simp [hm3])
  | none =>
  cases hm4 : m.liveMinute with
  | some v => exact h4 v (by simp [hm4])
  | none =>
  cases hm5 : truthyNum m.periodsDataMinute with
  | some v =>
    have : v ∈ m.periodsDataMinute := by
      cases hpd : m.periodsDataMinute <;> simp [truthyNum, hpd] at hm5
      · simp [hm5.2.symm]
    exact h5 v this
  | none =>
  cases hm6 : truthyNum m.periodsFirstMinute with
  | some v =>
    have : v ∈ m.periodsFirstMinute := by
      cases hpf : m.periodsFirstMinute <;> simp [truthyNum, hpf] at hm6
      · simp [hm6.2.symm]
    exact h6 v this
  | none =>
  cases hm7 : firstEventMinute m.eventMinutes with
  | some v => exact firstEventMinute_le m.eventMinutes h7 v hm7
  | none => exact startingAtFallback_le m nowSec

theorem applyLastMinuteCache_le (cache : Option CacheEntry) (minute now : Int)
    (hm : minute ≤ 130) (hc : ∀ c ∈ cache, c.minute ≤ 130) :
    (applyLastMinuteCache cache minute now).1 ≤ 130 ∧
      ∀ c ∈ (applyLastMinuteCache cache minute now).2, c.minute ≤ 130 := by
  cases cache with
  | none =>
    by_cases h : minute > 0
    · simp only [applyLastMinuteCache, if_pos h]
      exact ⟨hm, by simpa using hm⟩
    · simp only [applyLastMinuteCache, if_neg h]
      exact ⟨by norm_num, by simp⟩
  | some c =>
    have hcm : c.minute ≤ 130 := hc c rfl
    by_cases h : minute > 0
    · by_cases h2 : minute > c.minute
      · simp only [applyLastMinuteCache, if_pos h, if_pos h2]
        exact ⟨hm, by simpa using hm⟩
      · simp only [applyLastMinuteCache, if_pos h, if_neg h2]
        exact ⟨hm, by simpa using hcm⟩
    · by_cases h3 : now - c.timestamp < LAST_MINUTE_CACHE_SEC * 1000
      · simp only [applyLastMinuteCache, if_neg h, if_pos h3]
        exact ⟨min_le_left _ _, by simpa using hcm⟩
      · simp only [applyLastMinuteCache, if_neg h, if_neg h3]
        exact ⟨by norm_num, by simpa using hcm⟩

theorem guardMinute_le (normPrev : Option CacheEntry) (rawMinute cachedMinute : Int)
    (isStale : Bool) (now : Int) (hr : rawMinute ≤ 130) (hcm : cachedMinute ≤ 130)
    (hp : ∀ p ∈ normPrev, p.minute ≤ 130) :
    guardMinute normPrev rawMinute cachedMinute isStale now ≤ 130 := by
  cases normPrev with
  | none =>
    simp only [guardMinute]
    split <;> assumption
  | some p =>
    simp only [guardMinute]
    split
    · exact max_le hcm (min_le_left _ _)
    · split <;> assumption

theorem normPrevUpdate_le (normPrev : Option CacheEntry) (normalizedMinute now : Int)
    (hn : normalizedMinute ≤ 130) (hp : ∀ p ∈ normPrev, p.minute ≤ 130) :
    ∀ p ∈ normPrevUpdate normPrev normalizedMinute now, p.minute ≤ 130 := by
  by_cases h : normalizedMinute > 0
  · cases normPrev with
    | none =>
      simp only [normPrevUpdate, if_pos h]
      simpa using hn
    | some p =>
      by_cases h2 : normalizedMinute > p.minute
      · simp only [normPrevUpdate, if_pos h, if_pos h2]
        simpa using hn
      · simp only [normPrevUpdate, if_pos h, if_neg h2]
        simpa using hp p rfl
  · simp only [normPrevUpdate, if_neg h]
    exact hp

/-- One normalization step keeps the reported minute and all state components
at most 130 as long as the raw extracted minute is. -/
theorem normalizeStep_capped (s : MinuteState) (raw now : Int) (hr : raw ≤ 130)
    (hs : StateCapped s) :
    (normalizeStep s raw now).1 ≤ 130 ∧ StateCapped (normalizeStep s raw now).2 := by
  obtain ⟨hc, hp⟩ := hs
  obtain ⟨hc1, hc2⟩ := applyLastMinuteCache_le s.cache raw now hr hc
  have hg := guardMinute_le s.normPrev raw (applyLastMinuteCache s.cache raw now).1
    (staleTrack s.rawChange raw now).2 now hr hc1 hp
  exact ⟨hg, hc2, normPrevUpdate_le s.normPrev _ now hg hp⟩

/-- C8 (amended): across any poll sequence whose payloads only ever report
explicit minutes of at most 130, every minute produced by `normalizeSmMatch`
is at most 130 — the kickoff fallback, the cache inflation and the override
guard are each clamped to 130, so no amount of extrapolated elapsed time can
push the normalized minute past the cap. -/
theorem normalizeSmMatch_minute_le (trace : List (SmPayload × Int)) (s : MinuteState)
    (hs : StateCapped s) (hm : ∀ p ∈ trace, PayloadCapped p.1) :
    ∀ x ∈ runSm s trace, x ≤ 130 := by
  induction trace generalizing s with
  | nil => simp [runSm]
  | cons h t ih =>
    obtain ⟨p, now⟩ := h
    have hcap : PayloadCapped p := hm (p, now) (by simp)
    have hraw : extractMinute p (now.fdiv 1000) ≤ 130 := extractMinute_le p _ hcap
    obtain ⟨h1, h2⟩ := normalizeStep_capped s (extractMinute p (now.fdiv 1000)) now hraw hs
    intro x hx
    simp only [runSm, normalizeSmMatch, List.mem_cons] at hx
    rcases hx with rfl | hx
    · exact h1
    · exact ih _ h2 (fun q hq => hm q (by simp [hq])) x hx

/-- C8 witness: in a two-poll trace (an explicit minute 50, then a dropout
poll 70 s later, inflated by the guard) the first reported minute, a member of
the run, is below the cap. -/
theorem normalizeSmMatch_minute_le_witness : (50 : Int) ≤ 130 :=
  normalizeSmMatch_minute_le [(payloadMinute 50, 1000000), (payloadEmpty, 1070000)] {}
    (by constructor <;> simp)
    (by
      intro p hp
      simp only [List.mem_cons, List.not_mem_nil, or_false] at hp
      rcases hp with rfl | rfl <;>
        refine ⟨?_, ?_, ?_, ?_, ?_, ?_, ?_⟩ <;> simp [payloadMinute, payloadEmpty])
    50 (by decide)

/-- C8 counterexample: the claim "the normalized minute is at most 130 for
every raw match payload" fails — a payload whose feed directly reports
`time.minute = 500` passes through `normalizeSmMatch` uncapped. -/
theorem normalizeSmMatch_uncapped_passthrough :
    (normalizeSmMatch {} (payloadMinute 500) 1000000).1 = 500 ∧ ¬ ((500 : Int) ≤ 130) := by
  constructor <;> decide

/-- C9 (amended, adapter side): the `lastMinuteCache` entry maintained by the
adapter's normalizer is rewritten only when the computed (raw) minute strictly
exceeds the cached minute; a poll whose positive minute is equal to or below
the cached one leaves both the cached value and its timestamp unchanged, and a
non-positive minute never writes the cache. -/
theorem normalizeStep_cache_only_on_increase (s : MinuteState) (raw now : Int) :
    (∀ c, s.cache = some c → 0 < raw → raw ≤ c.minute →
      (normalizeStep s raw now).2.cache = some c) ∧
    (raw ≤ 0 → (normalizeStep s raw now).2.cache = s.cache) ∧
    ((normalizeStep s raw now).2.cache = s.cache ∨
      (0 < raw ∧ (∀ c, s.cache = some c → c.minute < raw) ∧
        (normalizeStep s raw now).2.cache = some ⟨raw, now⟩)) := by
  have hcache : (normalizeStep s raw now).2.cache = (applyLastMinuteCache s.cache raw now).2 :=
    rfl
  rw [hcache]
  unfold applyLastMinuteCache
  refine ⟨?_, ?_, ?_⟩
  · intro c hcs hpos hle
    rw [hcs]
    rw [if_pos hpos]
    dsimp only
    rw [if_neg (by omega)]
  · intro hraw
    rw [if_neg (by omega)]
    cases s.cache with
    | none => rfl
    | some c =>
      dsimp only
      split <;> rfl
  · by_cases hpos : raw > 0
    · rw [if_pos hpos]
      cases hsc : s.cache with
      | none =>
        right
        exact ⟨hpos, by intro c hc; simp at hc, rfl⟩
      | some c =>
        dsimp only
        by_cases hgt : raw > c.minute
        · right
          refine ⟨hpos, ?_, by rw [if_pos hgt]⟩
          intro d hd
          injection hd with hd
          subst hd
          omega
        · left
          rw [if_neg hgt]
    · rw [if_neg hpos]
      left
      cases s.cache with
      | none => rfl
      | some c =>
        dsimp only
        split <;> rfl

/-- C9 witness: a repeat of the cached minute 50 ten seconds later leaves the
adapter's cache entry — value and timestamp — untouched. -/
theorem normalizeStep_cache_only_on_increase_witness :
    (normalizeStep ⟨some ⟨50, 1000000⟩, none, none⟩ 50 1010000).2.cache
      = some ⟨50, 1000000⟩ :=
  (normalizeStep_cache_only_on_increase ⟨some ⟨50, 1000000⟩, none, none⟩ 50 1010000).1
    ⟨50, 1000000⟩ rfl (by norm_num) (by norm_num)

end SportmonksAdapter

namespace SportMonksClient

/-- The two minute caches of `SportMonksClient` (`sportmonks-client.ts` lines
31–32), restricted to one match: `lastMinuteCache` (value reported last) and
`lastChangeCache` (value at its last change). -/
structure ClientCacheState where
  lastMinuteCache : Option CacheEntry
  lastChangeCache : Option CacheEntry
deriving Repr, DecidableEq

/-- `LAST_MINUTE_CACHE_SEC` of `SportMonksClient` at its default (90 s). -/
def LAST_MINUTE_CACHE_SEC : Int := 90

/-- `SportMonksClient.applyLastMinuteCache` (`sportmonks-client.ts` lines
133–163): unlike the adapter variant, every positive minute rewrites the
`lastMinuteCache` entry — value and timestamp — even when the minute repeats
or drops, while `lastChangeCache` is rewritten only when the value changes.
Returns the reported minute, the `usedCache` flag, and the new caches. -/
def applyLastMinuteCache (st : ClientCacheState) (minute now : Int) :
    (Int × Bool) × ClientCacheState :=
  if minute > 0 then
    let change' :=
      match st.lastChangeCache with
      | none => some (⟨minute, now⟩ : CacheEntry)
      | some pc => if minute ≠ pc.minute then some ⟨minute, now⟩ else some pc
    ((minute, false), ⟨some ⟨minute, now⟩, change'⟩)
  else
    match st.lastMinuteCache with
    | none => ((0, false), st)
    | some c =>
      let elapsedMinutes := (now - c.timestamp).fdiv 60000
      let inflatedMinute := min 130 (c.minute + max 0 elapsedMinutes)
      if now - c.timestamp < LAST_MINUTE_CACHE_SEC * 1000 then ((inflatedMinute, true), st)
      else ((0, false), st)

/-- C9 counterexample: the claim fails for the `SportMonksClient` variant of
`applyLastMinuteCache`, which the live-match path calls (line 519): observing
the same positive minute 50 again ten seconds later rewrites the cache entry,
refreshing its timestamp from 1 000 000 to 1 010 000, so elapsed-time
extrapolation there does not accumulate from the last genuine increase. -/
theorem clientCache_rewritten_on_repeat :
    (applyLastMinuteCache ⟨some ⟨50, 1000000⟩, some ⟨50, 1000000⟩⟩ 50 1010000).2.lastMinuteCache
      = some ⟨50, 1010000⟩ ∧
    some (⟨50, 1010000⟩ : CacheEntry) ≠ some ⟨50, 1000000⟩ := by
  constructor <;> decide

end SportMonksClient

namespace RLAgent

/-- A Q-table of `rl-agent.ts` (`qTable` / `targetQTable`): a JS object
mapping a discretized state key to an array of `actionCount = 5` Q-values.
Modelled as an insertion-ordered association list (JS object property order);
the key is the rounded feature vector itself, since `stateToKey` joins the
rounded components with `','`, which is injective on numeric renderings. -/
abbrev QTable := List (List Rat × List Rat)

/-- JS `Math.round` (half-up, i.e. `floor(x + 0.5)`) applied as in
`stateToKey`: `Math.round(s * 100) / 100`. -/
def round2 (q : Rat) : Rat := ((Int.floor (q * 100 + 1/2) : Int) : Rat) / 100

/-- `stateToKey` of `rl-agent.ts` (line 64): the feature vector rounded to two
decimals (the comma-join is modelled by keying on the rounded list itself). -/
def stateToKey (state : List Rat) : List Rat := state.map round2

/-- A fresh all-zero Q-row (`new Array(this.actionCount).fill(0)`). -/
def zeroRow : List Rat := List.replicate 5 0

/-- `getQValues` (lines 68–74): look up the state key, lazily inserting an
all-zero row when the key is absent.  Returns the row and the (possibly
extended) table — the JS method returns a live reference into the mutated
`this.qTable`. -/
def getQValues (t : QTable) (state : List Rat) : List Rat × QTable :=
  match t.lookup (stateToKey state) with
  | some row => (row, t)
  | none => (zeroRow, t ++ [(stateToKey state, zeroRow)])

/-- JS `Math.max(...qValues)` for a non-empty row (the only way the source
calls it; the `[]` case is never reached and returns 0). -/
def rowMax : List Rat → Rat
  | [] => 0
  | x :: xs => xs.foldl max x

/-- `qValues.indexOf(Math.max(...qValues))`: the first index attaining the
maximum. -/
def argmaxIdx (l : List Rat) : Nat := l.indexOf (rowMax l)

/-- `selectAction` (lines 76–84): epsilon-greedy.  The `Math.random()` draw is
passed in as `randEps`, and the uniformly drawn exploration action
(`Math.floor(Math.random() * 5)`, always in `0..4`) as `randAct % 5`.  The
exploration branch does not touch the table; the exploitation branch reads (and
possibly lazily extends) it via `getQValues`. -/
def selectAction (epsilon randEps : Rat) (randAct : Nat) (t : QTable)
    (state : List Rat) : Nat × QTable :=
  if randEps < epsilon then (randAct % 5, t)
  else
    let r := getQValues t state
    (argmaxIdx r.1, r.2)

/-- The Q-table effect of `trackDecisionQuality` (lines 425–436): it reads the
row via `getQValues` (lazily inserting a zero row) to push a confidence score
onto the convergence history; the history itself is agent bookkeeping outside
the Q-tables and is not modelled. -/
def trackDecisionQualityTable (t : QTable) (state : List Rat) : QTable :=
  (getQValues t state).2

/-- The outward result of `evaluateSignal`. -/
structure EvalResult where
  shouldGenerate : Bool
  adjustedConfidence : Rat
  reasoning : String
deriving Repr, DecidableEq

/-- The 5-action switch of `evaluateSignal` (lines 354–379): reject, or one of
four confidence tiers (scale factor with a hard cap).  Both branches of the
source reach this with `action ∈ 0..4`. -/
def applyAction (action : Nat) (confidence : Rat) (reasoning : String) : EvalResult :=
  match action with
  | 0 => ⟨false, confidence,
      reasoning ++ " (RL Agent: Signal rejected - high risk pattern detected)"⟩
  | 1 => ⟨true, min (confidence * (6/10)) 50,
      reasoning ++ " (RL Agent: Very low confidence - experimental signal)"⟩
  | 2 => ⟨true, min (confidence * (8/10)) 65,
      reasoning ++ " (RL Agent: Low confidence - conservative approach)"⟩
  | 3 => ⟨true, min (confidence * (95/100)) 80,
      reasoning ++ " (RL Agent: Medium confidence - standard signal)"⟩
  | _ => ⟨true, min (confidence * (115/100)) 95,
      reasoning ++ " (RL Agent: High confidence - strong pattern identified)"⟩

/-- `evaluateSignal` (lines 339–396), restricted to its decision and its
effect on the two Q-tables.  `extractFeatures` is a pure function of the
analysis/match/trend inputs that never reads or writes the Q-tables, so the
embedding takes the extracted feature vector `state` directly; `confidence`
and `reasoning` are `analysis.confidence` / `analysis.reasoning`.  After the
switch, `storeStateAction` touches only the pending-evaluation map and
`trackDecisionQuality` reads the row again.  Returns the result, the new main
table, and the new target table. -/
def evaluateSignal (epsilon randEps : Rat) (randAct : Nat)
    (qTable targetQTable : QTable) (state : List Rat) (confidence : Rat)
    (reasoning : String) : EvalResult × QTable × QTable :=
  let sa := selectAction epsilon randEps randAct qTable state
  let res := applyAction sa.1 confidence reasoning
  (res, trackDecisionQualityTable sa.2 state, targetQTable)

/-- Reading a Q-row under `getQValues` semantics: an absent key denotes the
all-zero row. -/
def readQ (t : QTable) (key : List Rat) : List Rat :=
  (t.lookup key).getD zeroRow

/-- A pending evaluation record of `pendingStateActions` (the fields
`calculateAdvancedReward` reads). -/
structure PendingSA where
  state : List Rat
  action : Nat
  originalConfidence : Option Rat
deriving Repr, DecidableEq

/-- The outcome reported to `updateFromResult`. -/
inductive Outcome
  | won
  | lost
  | expired
deriving Repr, DecidableEq

/-- `calculateAdvancedReward` (lines 507–541): base reward per outcome, a
profit-scaled bonus/penalty clamped to ±0.5 (guarded by JS truthiness on
`profit`), and the calibration correction keyed on the original confidence
(guarded by truthiness on `originalConfidence`). -/
def calculateAdvancedReward (signalResult : Outcome) (profit : Option Rat)
    (originalConfidence : Option Rat) : Rat :=
  let baseReward : Rat :=
    match signalResult with
    | .won => 1 + (match profit with
        | some p => if p ≠ 0 ∧ p > 0 then min (p / 100) (1/2) else 0
        | none => 0)
    | .lost => -1 + (match profit with
        | some p => if p ≠ 0 ∧ p < 0 then max (p / 100) (-(1/2)) else 0
        | none => 0)
    | .expired => -(1/5)
  match originalConfidence with
  | some c =>
    if c ≠ 0 then
      let confidence := c / 100
      if signalResult = .lost ∧ confidence > 4/5 then baseReward - 3/10
      else if signalResult = .won ∧ confidence < 3/5 then baseReward + 1/5
      else baseReward
    else baseReward
  | none => baseReward

/-- The reward computed by `updateFromResult` (lines 447–456) for a tracked
evaluation: the pending record is looked up by signal id (`none` models an
untracked id, for which the method warns and returns without a reward). -/
def updateFromResultReward (pending : Option PendingSA) (signalResult : Outcome)
    (profit : Option Rat) : Option Rat :=
  pending.map (fun sa => calculateAdvancedReward signalResult profit sa.originalConfidence)

theorem readQ_getQValues (t : QTable) (state : List Rat) :
    ∀ key, readQ (getQValues t state).2 key = readQ t key := by
  intro key
  unfold getQValues
  cases hl : t.lookup (stateToKey state) with
  | some row => rfl
  | none =>
    dsimp only [readQ]
    induction t with
    | nil =>
      simp only [List.nil_append, List.lookup]
      cases hk : key == stateToKey state with
      | true => rfl
      | false => rfl
    | cons a t ih =>
      obtain ⟨ak, av⟩ := a
      simp only [List.lookup] at hl
      simp only [List.cons_append, List.lookup]
      cases hka : key == ak with
      | true => rfl
      | false =>
        cases hsa : stateToKey state == ak with
        | true => rw [hsa] at hl; simp at hl
        | false => rw [hsa] at hl; exact ih hl

/-- C6 (amended): `evaluateSignal` never changes the value of any Q-entry —
reading any state key (with an absent key denoting the all-zero row a lazy
`getQValues` would create) gives the same row before and after the call, and
the target table is returned untouched.  The only table mutation is the
insertion of explicit all-zero rows for previously unseen keys, which the
counterexample exhibits. -/
theorem evaluateSignal_preserves_q (epsilon randEps : Rat) (randAct : Nat)
    (qTable targetQTable : QTable) (state : List Rat) (confidence : Rat)
    (reasoning : String) :
    (∀ key,
      readQ (evaluateSignal epsilon randEps randAct qTable targetQTable state
        confidence reasoning).2.1 key = readQ qTable key) ∧
    (evaluateSignal epsilon randEps randAct qTable targetQTable state
        confidence reasoning).2.2 = targetQTable := by
  constructor
  · intro key
    unfold evaluateSignal trackDecisionQualityTable selectAction
    by_cases h : randEps < epsilon
    · simp only [if_pos h]
      exact readQ_getQValues qTable state key
    · simp only [if_neg h]
      rw [readQ_getQValues _ state key, readQ_getQValues qTable state key]
  · rfl

theorem stateKey_one : stateToKey [1] = [1] := by
  unfold stateToKey round2
  simp only [List.map_cons, List.map_nil, List.cons.injEq, and_true]
  norm_num

/-- C6 counterexample: the claim that the mapping from state key to Q-value
arrays is identical before and after `evaluateSignal` fails literally — on an
empty main Q-table, evaluating any signal inserts an explicit all-zero row for
the new state key, so the table gains an entry. -/
theorem evaluateSignal_inserts_zero_row :
    (evaluateSignal 0 (1/2) 0 [] [] [1] 70 "r").2.1 = [([1], zeroRow)] ∧
    ([([1], zeroRow)] : QTable) ≠ ([] : QTable) := by
  constructor
  · show trackDecisionQualityTable (selectAction 0 (1/2) 0 [] [1]).2 [1] = _
    have hsel : (selectAction 0 (1/2) 0 [] [1]).2 = [([1], zeroRow)] := by
      unfold selectAction getQValues
      rw [if_neg (by norm_num), stateKey_one]
      rfl
    rw [hsel]
    unfold trackDecisionQualityTable getQValues
    rw [stateKey_one]
    simp [List.lookup]
  · simp

/-- C7: reward shaping of `calculateAdvancedReward` as consumed by
`updateFromResult`: `expired` is a flat −0.2; `won` is +1 plus a profit bonus
of at most +0.5 plus a possible +0.2 calibration bonus; `lost` is −1 plus a
loss penalty of at most −0.5 plus a possible −0.3 overconfidence penalty; a
loss with original confidence above 80 is at most −1.3; a win with original
confidence below 60 is at least +1.2; and the spec's concrete example — lost,
confidence 90, profit −10 — rewards exactly −1.4, strictly below −1, also
through the `updateFromResult` plumbing for a tracked evaluation. -/
theorem calculateAdvancedReward_spec :
    (∀ p c, calculateAdvancedReward .expired p c = -(1/5)) ∧
    (∀ p c, 1 ≤ calculateAdvancedReward .won p c ∧
      calculateAdvancedReward .won p c ≤ 1 + 1/2 + 1/5) ∧
    (∀ p c, -(1 + 1/2 + 3/10) ≤ calculateAdvancedReward .lost p c ∧
      calculateAdvancedReward .lost p c ≤ -1) ∧
    (∀ p (c : Rat), 80 < c → calculateAdvancedReward .lost p (some c) ≤ -(1 + 3/10)) ∧
    (∀ p (c : Rat), 0 < c → c < 60 → 1 + 1/5 ≤ calculateAdvancedReward .won p (some c)) ∧
    calculateAdvancedReward .lost (some (-10)) (some 90) = -(7/5) ∧
    calculateAdvancedReward .lost (some (-10)) (some 90) < -1 ∧
    (∀ st a, updateFromResultReward (some ⟨st, a, some 90⟩) .lost (some (-10))
      = some (-(7/5))) := by
  have hwonBase : ∀ p : Option Rat,
      1 ≤ (1 + (match p with
        | some q => if q ≠ 0 ∧ q > 0 then min (q / 100) (1/2) else 0
        | none => 0) : Rat) ∧
      (1 + (match p with
        | some q => if q ≠ 0 ∧ q > 0 then min (q / 100) (1/2) else 0
        | none => 0) : Rat) ≤ 3/2 := by
    intro p
    cases p with
    | none => norm_num
    | some q =>
      dsimp only
      split_ifs with h
      · obtain ⟨-, hq⟩ := h
        have h1 : (0 : Rat) ≤ min (q / 100) (1/2) :=
          le_min (by positivity) (by norm_num)
        have h2 : min (q / 100) (1/2) ≤ 1/2 := min_le_right _ _
        constructor <;> linarith
      · norm_num
  have hlostBase : ∀ p : Option Rat,
      -(3/2 : Rat) ≤ (-1 + (match p with
        | some q => if q ≠ 0 ∧ q < 0 then max (q / 100) (-(1/2)) else 0
        | none => 0) : Rat) ∧
      (-1 + (match p with
        | some q => if q ≠ 0 ∧ q < 0 then max (q / 100) (-(1/2)) else 0
        | none => 0) : Rat) ≤ -1 := by
    intro p
    cases p with
    | none => norm_num
    | some q =>
      dsimp only
      split_ifs with h
      · obtain ⟨-, hq⟩ := h
        have h1 : -(1/2 : Rat) ≤ max (q / 100) (-(1/2)) := le_max_right _ _
        have h2 : max (q / 100) (-(1/2)) ≤ 0 :=
          max_le (by linarith) (by norm_num)
        constructor <;> linarith
      · norm_num
  refine ⟨?_, ?_, ?_, ?_, ?_, ?_, ?_, ?_⟩
  · intro p c
    unfold calculateAdvancedReward
    cases c with
    | none => rfl
    | some v =>
      dsimp only
      split_ifs with h1 h2 h3 <;> first
        | rfl
        | (exact absurd h2.1 (by simp))
        | (exact absurd h3.1 (by simp))
  · intro p c
    obtain ⟨hb1, hb2⟩ := hwonBase p
    unfold calculateAdvancedReward
    cases c with
    | none => exact ⟨by linarith, by linarith⟩
    | some v =>
      dsimp only
      split_ifs with h1 h2 h3 <;>
        first
          | (exact absurd h2.1 (by simp))
          | (exact ⟨by linarith, by linarith⟩)
  · intro p c
    obtain ⟨hb1, hb2⟩ := hlostBase p
    unfold calculateAdvancedReward
    cases c with
    | none => exact ⟨by linarith, by linarith⟩
    | some v =>
      dsimp only
      split_ifs with h1 h2 h3 <;>
        first
          | (exact absurd h3.1 (by simp))
          | (exact ⟨by linarith, by linarith⟩)
  · intro p c hc
    obtain ⟨hb1, hb2⟩ := hlostBase p
    unfold calculateAdvancedReward
    dsimp only
    rw [if_pos (by intro h; rw [h] at hc; norm_num at hc)]
    rw [if_pos ⟨rfl, by rw [gt_iff_lt, lt_div_iff₀ (by norm_num)]; linarith⟩]
    linarith
  · intro p c hc0 hc
    obtain ⟨hb1, hb2⟩ := hwonBase p
    unfold calculateAdvancedReward
    dsimp only
    rw [if_pos (by intro h; rw [h] at hc0; norm_num at hc0)]
    rw [if_neg (by simp)]
    rw [if_pos ⟨rfl, by rw [div_lt_iff₀ (by norm_num)]; linarith⟩]
    linarith
  · norm_num [calculateAdvancedReward]
  · norm_num [calculateAdvancedReward]
  · intro st a
    simp only [updateFromResultReward, Option.map_some]
    norm_num [calculateAdvancedReward]

/-- C7 witness: the two calibration conjuncts instantiated — a loss at
confidence 90 is rewarded at most −1.3, and a win at confidence 50 at least
+1.2. -/
theorem calculateAdvancedReward_spec_witness :
    calculateAdvancedReward .lost none (some 90) ≤ -(1 + 3/10) ∧
    1 + 1/5 ≤ calculateAdvancedReward .won none (some 50) :=
  ⟨calculateAdvancedReward_spec.2.2.2.1 none 90 (by norm_num),
   calculateAdvancedReward_spec.2.2.2.2.1 none 50 (by norm_num) (by norm_num)⟩

/-- C10: on a state whose Q-row was never updated — the key is absent (lazily
created as a zero row) or explicitly all zeros — the greedy branch of
`selectAction` returns action 0 (first-index tie-breaking of `indexOf` over an
all-zero row), so whenever the epsilon draw takes the exploitation branch,
`evaluateSignal` rejects: `shouldGenerate = false`. -/
theorem selectAction_zero_row_rejects (epsilon randEps : Rat) (randAct : Nat)
    (qTable targetQTable : QTable) (state : List Rat) (confidence : Rat)
    (reasoning : String)
    (hexploit : ¬ randEps < epsilon)
    (hrow : qTable.lookup (stateToKey state) = none ∨
      qTable.lookup (stateToKey state) = some zeroRow) :
    (selectAction epsilon randEps randAct qTable state).1 = 0 ∧
    (evaluateSignal epsilon randEps randAct qTable targetQTable state confidence
      reasoning).1.shouldGenerate = false := by
  have hz : argmaxIdx zeroRow = 0 := by decide
  have hsel : (selectAction epsilon randEps randAct qTable state).1 = 0 := by
    unfold selectAction getQValues
    rw [if_neg hexploit]
    rcases hrow with h | h <;> rw [h] <;> exact hz
  refine ⟨hsel, ?_⟩
  show (applyAction (selectAction epsilon randEps randAct qTable state).1
    confidence reasoning).shouldGenerate = false
  rw [hsel]
  rfl

/-- C10 witness: the empty table with the exploitation branch forced
(`epsilon = 0`) rejects the signal. -/
theorem selectAction_zero_row_rejects_witness :
    (selectAction 0 (1/2) 3 [] [1]).1 = 0 ∧
    (evaluateSignal 0 (1/2) 3 [] [] [1] 70 "r").1.shouldGenerate = false :=
  selectAction_zero_row_rejects 0 (1/2) 3 [] [] [1] 70 "r" (by norm_num) (Or.inl rfl)

end RLAgent

namespace ActiveSignalService

/-- A JS `Map<string, β>` as an insertion-ordered association list. -/
abbrev JsMap (β : Type) := List (String × β)

/-- JS `Map.set`: replace in place when the key exists, else append. -/
def alSet {β : Type} (m : JsMap β) (k : String) (v : β) : JsMap β :=
  if (m.lookup k).isSome then m.map (fun p => if p.1 = k then (k, v) else p)
  else m ++ [(k, v)]

/-- The key list of a JS `Map` built by grouping a list in encounter order:
each key once, at its first occurrence. -/
def mapKeysInOrder : List String → List String
  | [] => []
  | k :: rest => k :: mapKeysInOrder (rest.filter (fun x => x != k))
termination_by l => l.length
decreasing_by
  simp only [List.length_cons]
  exact Nat.lt_succ_of_le (List.length_filter_le _ _)

/-- Signal lifecycle states of `active-signal-service.ts`. -/
inductive SigState
  | PRE
  | CANDIDATE
  | ACTIVE
  | EXPIRED
deriving Repr, DecidableEq

/-- Position of a state in the forward order PRE → CANDIDATE → ACTIVE →
EXPIRED. -/
def stateIdx : SigState → Nat
  | .PRE => 0
  | .CANDIDATE => 1
  | .ACTIVE => 2
  | .EXPIRED => 3

/-- `SignalCandidate` restricted to the fields `active-signal-service.ts`
reads and writes.  `confidence` is a percentage (JS float, hence `Rat`);
`createdTs`/`lastUpdateTs` are epoch ms; `meta` is the free-form map, kept as
an opaque association list. -/
structure SignalCandidate where
  id : String
  matchId : String
  market : String
  selection : String
  confidence : Rat
  minute : Int
  liquidityOk : Bool
  ttlSeconds : Rat
  state : SigState
  reasoning : String
  createdTs : Int
  lastUpdateTs : Int
  meta : List (String × String)
deriving Repr, DecidableEq

/-- Per-market configuration. -/
structure MarketConfig where
  enabled : Bool
  minConfidence : Rat
  maxSignalsPerMatch : Nat
deriving Repr, DecidableEq

/-- `ActiveSignalConfig`. -/
structure ASConfig where
  confidenceActive : Rat
  maxActive : Nat
  cooldownSeconds : Int
  maturationWindow : Rat
  signalTTL : Rat
  over_under : MarketConfig
  btts : MarketConfig
  next_goal : MarketConfig
deriving Repr, DecidableEq

/-- The service state: the `signals` live set and the `cooldown` map (last
ACTIVE timestamp by signal id). -/
structure ASState where
  signals : JsMap SignalCandidate
  cooldown : JsMap Int
deriving Repr, DecidableEq

/-- `getMarketThreshold`: per-market confidence threshold by string-prefix
matching. -/
def getMarketThreshold (cfg : ASConfig) (market : String) : Rat :=
  if market.startsWith "over_" || market.startsWith "under_" then
    cfg.over_under.minConfidence
  else if market.startsWith "btts" then cfg.btts.minConfidence
  else if market.startsWith "next_goal" then cfg.next_goal.minConfidence
  else cfg.confidenceActive

/-- `getPerMatchLimit`: per-match signal cap by market prefix (default 2). -/
def getPerMatchLimit (cfg : ASConfig) (market : String) : Nat :=
  if market.startsWith "over_" || market.startsWith "under_" then
    cfg.over_under.maxSignalsPerMatch
  else if market.startsWith "btts" then cfg.btts.maxSignalsPerMatch
  else if market.startsWith "next_goal" then cfg.next_goal.maxSignalsPerMatch
  else 2

/-- `getMarketType`: the market-bucket key used for per-match grouping. -/
def getMarketType (market : String) : String :=
  if market.startsWith "over_" || market.startsWith "under_" then "ou"
  else if market.startsWith "btts" then "btts"
  else if market.startsWith "next_goal" then "next_goal"
  else "other"

/-- `getTimeLeft`: remaining TTL in (fractional) seconds,
`max(0, ttlSeconds − (now − createdTs)/1000)`. -/
def getTimeLeft (now : Int) (s : SignalCandidate) : Rat :=
  max 0 (s.ttlSeconds - ((now - s.createdTs : Int) : Rat) / 1000)

/-- `getAge`: signal age in (fractional) seconds. -/
def getAge (now : Int) (s : SignalCandidate) : Rat :=
  ((now - s.createdTs : Int) : Rat) / 1000

/-- `calculatePriority`: lower sorts first — negated confidence, then
remaining TTL. -/
def calculatePriority (now : Int) (s : SignalCandidate) : Rat × Rat :=
  (-s.confidence, getTimeLeft now s)

/-- The comparator used by every `sort` call of the service, as a ≤-relation:
ascending in the pair `calculatePriority` lexicographically (i.e. descending
confidence, then ascending remaining TTL).  JS `Array.sort` is stable, as is
`List.mergeSort`. -/
def priorityLe (now : Int) (a b : SignalCandidate) : Bool :=
  decide ((calculatePriority now a).1 < (calculatePriority now b).1 ∨
    ((calculatePriority now a).1 = (calculatePriority now b).1 ∧
      (calculatePriority now a).2 ≤ (calculatePriority now b).2))

/-- `isDeduplicated`: true when the id may (re-)activate — no recorded last
ACTIVE timestamp (JS falsy, which also treats a stored `0` as absent), or the
cooldown window has fully elapsed. -/
def isDeduplicated (cfg : ASConfig) (cool : JsMap Int) (id : String) (now : Int) : Bool :=
  match cool.lookup id with
  | none => true
  | some lastActiveTs =>
    if lastActiveTs = 0 then true
    else decide (now - lastActiveTs ≥ cfg.cooldownSeconds * 1000)

/-- `promoteSignal` (`active-signal-service.ts` lines 142–168): PRE →
CANDIDATE on the reduced threshold plus liquidity, then CANDIDATE → ACTIVE on
full threshold, maturation age, liquidity and the cooldown check; an ACTIVE
promotion overwrites the cooldown timestamp with `now`; any state change
stamps `lastUpdateTs`. -/
def promoteSignal (cfg : ASConfig) (cool : JsMap Int) (now : Int)
    (sig : SignalCandidate) : SignalCandidate × JsMap Int :=
  let threshold := getMarketThreshold cfg sig.market
  let sig1 :=
    if sig.state = .PRE ∧ sig.confidence ≥ threshold - 15 ∧ sig.liquidityOk = true then
      { sig with state := .CANDIDATE }
    else sig
  let sc :=
    if sig1.state = .CANDIDATE ∧ sig1.confidence ≥ threshold ∧
        getAge now sig1 ≥ cfg.maturationWindow ∧ sig1.liquidityOk = true ∧
        isDeduplicated cfg cool sig1.id now = true then
      ({ sig1 with state := .ACTIVE }, alSet cool sig1.id now)
    else (sig1, cool)
  let sig3 := if sig.state ≠ sc.1.state then { sc.1 with lastUpdateTs := now } else sc.1
  (sig3, sc.2)

/-- The merge applied by `update()` to a candidate whose identity already
lives in the set (lines 197–210): the stored signal is the incoming candidate
(confidence, minute, liquidity, reasoning and meta are its new values) with
the original `createdTs` and the current `state` carried forward. -/
def mergeExisting (cand existing : SignalCandidate) : SignalCandidate :=
  { cand with createdTs := existing.createdTs, state := existing.state }

/-- Processing of one incoming candidate inside `update()` (lines 194–218):
stamp `lastUpdateTs`, merge with an existing identity, store, and promote
through the state machine when the (carried) state is PRE or CANDIDATE. -/
def processCandidate (cfg : ASConfig) (now : Int) (st : ASState)
    (cand0 : SignalCandidate) : ASState :=
  let cand1 := { cand0 with lastUpdateTs := now }
  let cand :=
    match st.signals.lookup cand1.id with
    | some existing => mergeExisting cand1 existing
    | none => cand1
  let signals1 := alSet st.signals cand.id cand
  if cand.state = .PRE ∨ cand.state = .CANDIDATE then
    let pc := promoteSignal cfg st.cooldown now cand
    ⟨alSet signals1 cand.id pc.1, pc.2⟩
  else ⟨signals1, st.cooldown⟩

/-- The expiry sweep of `update()` (lines 221–231): every entity whose
remaining TTL reached zero is marked EXPIRED and deleted from the live set in
the same call. -/
def expireSweep (now : Int) (m : JsMap SignalCandidate) : JsMap SignalCandidate :=
  m.filter (fun p => !decide (getTimeLeft now p.2 ≤ 0))

/-- The ACTIVE signals of the live set, in map order. -/
def activesOf (signals : JsMap SignalCandidate) : List SignalCandidate :=
  (signals.map Prod.snd).filter (fun s => s.state == SigState.ACTIVE)

/-- `marketSignals[0]?.market || 'other'`: the market of a bucket group's
first signal, with the JS falsy fallback. -/
def headMarket (g : List SignalCandidate) : String :=
  match g.head? with
  | some s => if s.market = "" then "other" else s.market
  | none => "other"

/-- Per-match limiting of `update()` (lines 248–274): sort the match group by
priority, group by market bucket in encounter order, truncate each bucket to
its market's per-match limit, and flatten in bucket order. -/
def limitMatchGroup (cfg : ASConfig) (now : Int) (ms : List SignalCandidate) :
    List SignalCandidate :=
  let sorted := ms.mergeSort (priorityLe now)
  (mapKeysInOrder (sorted.map (fun s => getMarketType s.market))).flatMap
    (fun b =>
      let group := sorted.filter (fun s => getMarketType s.market == b)
      group.take (getPerMatchLimit cfg (headMarket group)))

/-- The `limitedSignals` list of `update()` (lines 247–274): the ACTIVE
signals grouped by matchId in encounter order, each match group limited per
market bucket. -/
def limitedSignals (cfg : ASConfig) (now : Int) (signals : JsMap SignalCandidate) :
    List SignalCandidate :=
  (mapKeysInOrder ((activesOf signals).map (fun s => s.matchId))).flatMap
    (fun mid => limitMatchGroup cfg now ((activesOf signals).filter
      (fun s => s.matchId == mid)))

/-- The signals selected and ordered by `update()` (lines 233–289): the
limited signals globally sorted by priority and truncated to `maxActive`
(`update` then maps them through `toSummary`, which preserves order and
one-to-one content). -/
def updateSelect (cfg : ASConfig) (now : Int) (signals : JsMap SignalCandidate) :
    List SignalCandidate :=
  ((limitedSignals cfg now signals).mergeSort (priorityLe now)).take cfg.maxActive

/-- The signals selected and ordered by `getSnapshot()` (lines 334–384),
which duplicates the grouping/limiting/sorting pipeline of `update()` inline
(`getSnapshot` then maps them through `toUISignal`). -/
def snapshotSelect (cfg : ASConfig) (now : Int) (signals : JsMap SignalCandidate) :
    List SignalCandidate :=
  let activeSignals := (signals.map Prod.snd).filter (fun s => s.state == SigState.ACTIVE)
  let limited :=
    (mapKeysInOrder (activeSignals.map (fun s => s.matchId))).flatMap
      (fun mid =>
        let ms := activeSignals.filter (fun s => s.matchId == mid)
        let sorted := ms.mergeSort (priorityLe now)
        (mapKeysInOrder (sorted.map (fun s => getMarketType s.market))).flatMap
          (fun b =>
            let group := sorted.filter (fun s => getMarketType s.market == b)
            group.take (getPerMatchLimit cfg (headMarket group))))
  (limited.mergeSort (priorityLe now)).take cfg.maxActive

/-- `update(candidates)` (lines 190–290): process the incoming candidates in
order, sweep out expired entities, and return the new state together with the
selected active view. -/
def update (cfg : ASConfig) (st : ASState) (now : Int)
    (cands : List SignalCandidate) : ASState × List SignalCandidate :=
  let st1 := cands.foldl (processCandidate cfg now) st
  let signals2 := expireSweep now st1.signals
  (⟨signals2, st1.cooldown⟩, updateSelect cfg now signals2)

theorem lookup_mem {β : Type} {m : JsMap β} {k : String} {v : β}
    (h : m.lookup k = some v) : (k, v) ∈ m := by
  obtain ⟨l₁, l₂, rfl, -⟩ := List.lookup_eq_some_iff.mp h
  simp

theorem key_mem_of_lookup {β : Type} {m : JsMap β} {k : String} {v : β}
    (h : m.lookup k = some v) : k ∈ m.map Prod.fst := by
  exact List.mem_map.mpr ⟨(k, v), lookup_mem h, rfl⟩

theorem lookup_none_key {β : Type} {m : JsMap β} {k : String}
    (h : m.lookup k = none) : ∀ p ∈ m, p.1 ≠ k := by
  intro p hp
  have hne := List.lookup_eq_none_iff.mp h p hp
  rw [bne_iff_ne] at hne
  exact fun hk => hne hk.symm

theorem lookup_map_replace {β : Type} (k : String) (v : β) :
    ∀ (m : JsMap β),
      (m.map (fun p => if p.1 = k then (k, v) else p)).lookup k
        = if (m.lookup k).isSome then some v else none := by
  intro m
  induction m with
  | nil => simp
  | cons a m ih =>
    obtain ⟨ak, av⟩ := a
    simp only [List.map_cons]
    dsimp only
    by_cases hak : ak = k
    · subst hak
      rw [if_pos rfl, List.lookup_cons, List.lookup_cons]
      simp only [beq_self_eq_true]
      rfl
    · rw [if_neg hak, List.lookup_cons, List.lookup_cons]
      have hka : (k == ak) = false := beq_eq_false_iff_ne.mpr (Ne.symm hak)
      simp only [hka]
      exact ih

theorem lookup_map_replace_ne {β : Type} (k k' : String) (v : β) (h : k' ≠ k) :
    ∀ (m : JsMap β),
      (m.map (fun p => if p.1 = k then (k, v) else p)).lookup k' = m.lookup k' := by
  intro m
  induction m with
  | nil => simp
  | cons a m ih =>
    obtain ⟨ak, av⟩ := a
    simp only [List.map_cons]
    dsimp only
    by_cases hak : ak = k
    · rw [if_pos hak, List.lookup_cons, List.lookup_cons]
      have h1 : (k' == k) = false := beq_eq_false_iff_ne.mpr h
      have h2 : (k' == ak) = false := beq_eq_false_iff_ne.mpr (by rw [hak]; exact h)
      simp only [h1, h2]
      exact ih
    · rw [if_neg hak, List.lookup_cons, List.lookup_cons]
      cases hka : (k' == ak) with
      | true => simp only [hka]
      | false =>
        simp only [hka]
        exact ih

theorem lookup_append_single {β : Type} (k k' : String) (v : β) :
    ∀ (m : JsMap β), (m ++ [(k, v)]).lookup k'
      = if (m.lookup k').isSome then m.lookup k'
        else if k' == k then some v else none := by
  intro m
  induction m with
  | nil =>
    simp only [List.nil_append, List.lookup_cons, List.lookup_nil]
    cases hk : (k' == k) with
    | true => simp
    | false => simp
  | cons a m ih =>
    obtain ⟨ak, av⟩ := a
    simp only [List.cons_append, List.lookup_cons]
    cases hka : (k' == ak) with
    | true => simp
    | false => simpa using ih

theorem lookup_alSet_self {β : Type} (m : JsMap β) (k : String) (v : β) :
    (alSet m k v).lookup k = some v := by
  unfold alSet
  by_cases h : (m.lookup k).isSome
  · rw [if_pos h, lookup_map_replace, if_pos h]
  · rw [if_neg h, lookup_append_single]
    simp only [if_neg h]
    simp

theorem lookup_alSet_ne {β : Type} (m : JsMap β) (k k' : String) (v : β)
    (h : k' ≠ k) : (alSet m k v).lookup k' = m.lookup k' := by
  unfold alSet
  by_cases hs : (m.lookup k).isSome
  · rw [if_pos hs, lookup_map_replace_ne _ _ _ h]
  · rw [if_neg hs, lookup_append_single]
    have : (k' == k) = false := beq_eq_false_iff_ne.mpr h
    rw [this]
    by_cases hs' : (m.lookup k').isSome
    · rw [if_pos hs']
    · rw [if_neg hs', Option.not_isSome_iff_eq_none.mp hs']
      simp

theorem mem_alSet {β : Type} {m : JsMap β} {k : String} {v : β} {p : String × β}
    (h : p ∈ alSet m k v) : p ∈ m ∨ p = (k, v) := by
  unfold alSet at h
  by_cases hs : (m.lookup k).isSome
  · rw [if_pos hs] at h
    obtain ⟨q, hq, him⟩ := List.mem_map.mp h
    by_cases hqk : q.1 = k
    · rw [if_pos hqk] at him
      exact Or.inr him.symm
    · rw [if_neg hqk] at him
      exact Or.inl (him ▸ hq)
  · rw [if_neg hs] at h
    rcases List.mem_append.mp h with h | h
    · exact Or.inl h
    · simp only [List.mem_singleton] at h
      exact Or.inr h

theorem keys_alSet_nodup {β : Type} {m : JsMap β} (k : String) (v : β)
    (h : (m.map Prod.fst).Nodup) : ((alSet m k v).map Prod.fst).Nodup := by
  unfold alSet
  by_cases hs : (m.lookup k).isSome
  · rw [if_pos hs]
    have : ((m.map (fun p => if p.1 = k then (k, v) else p)).map Prod.fst)
        = m.map Prod.fst := by
      rw [List.map_map]
      apply List.map_congr_left
      intro p _
      by_cases hp : p.1 = k
      · simp [hp]
      · simp [hp]
    rw [this]
    exact h
  · rw [if_neg hs]
    rw [List.map_append]
    simp only [List.map_cons, List.map_nil]
    rw [List.nodup_append]
    refine ⟨h, List.nodup_singleton k, ?_⟩
    intro a ha
    simp only [List.mem_singleton]
    obtain ⟨p, hp, rfl⟩ := List.mem_map.mp ha
    have := lookup_none_key (Option.not_isSome_iff_eq_none.mp hs) p hp
    simpa using this

theorem lookup_filter_nodup {β : Type} (q : String × β → Bool) :
    ∀ (m : JsMap β), (m.map Prod.fst).Nodup → ∀ (k : String) (v : β),
      (m.filter q).lookup k = some v → m.lookup k = some v ∧ q (k, v) = true := by
  intro m
  induction m with
  | nil => intro _ k v h; simp [List.filter] at h
  | cons a m ih =>
    intro hnd k v h
    obtain ⟨ak, av⟩ := a
    simp only [List.map_cons, List.nodup_cons] at hnd
    obtain ⟨hak, hnd⟩ := hnd
    by_cases hq : q (ak, av) = true
    · rw [List.filter_cons_of_pos hq] at h
      rw [List.lookup_cons] at h ⊢
      cases hka : (k == ak) with
      | true =>
        rw [hka] at h
        injection h with h
        subst h
        have : k = ak := by simpa using hka
        subst this
        exact ⟨rfl, hq⟩
      | false =>
        rw [hka] at h
        exact ih hnd k v h
    · rw [List.filter_cons_of_neg hq] at h
      obtain ⟨hl, hqv⟩ := ih hnd k v h
      rw [List.lookup_cons]
      have hka : (k == ak) = false := by
        apply beq_eq_false_iff_ne.mpr
        intro hkak
        subst hkak
        exact hak (key_mem_of_lookup hl)
      rw [hka]
      exact ⟨hl, hqv⟩

theorem mem_mapKeysInOrder : ∀ (l : List String) (x : String),
    x ∈ mapKeysInOrder l ↔ x ∈ l := by
  intro l
  induction l using mapKeysInOrder.induct with
  | case1 => simp [mapKeysInOrder]
  | case2 k rest ih =>
    intro x
    rw [mapKeysInOrder]
    simp only [List.mem_cons, ih, List.mem_filter]
    constructor
    · rintro (rfl | ⟨h1, -⟩)
      · exact Or.inl rfl
      · exact Or.inr h1
    · rintro (rfl | h1)
      · exact Or.inl rfl
      · by_cases hk : x = k
        · exact Or.inl hk
        · exact Or.inr ⟨h1, by simpa using hk⟩

/-- The candidate as stored before promotion: stamped with `lastUpdateTs` and,
when the identity already exists, merged with the stored signal. -/
def mergedOf (st : ASState) (now : Int) (c : SignalCandidate) : SignalCandidate :=
  match st.signals.lookup c.id with
  | some existing => mergeExisting { c with lastUpdateTs := now } existing
  | none => { c with lastUpdateTs := now }

/-- The signal that `processCandidate` leaves in the live set for `c.id`. -/
def storedOf (cfg : ASConfig) (st : ASState) (now : Int) (c : SignalCandidate) :
    SignalCandidate :=
  if (mergedOf st now c).state = .PRE ∨ (mergedOf st now c).state = .CANDIDATE then
    (promoteSignal cfg st.cooldown now (mergedOf st now c)).1
  else mergedOf st now c

theorem promoteSignal_state_advance (cfg : ASConfig) (cool : JsMap Int) (now : Int)
    (sig : SignalCandidate) :
    stateIdx sig.state ≤ stateIdx (promoteSignal cfg cool now sig).1.state := by
  unfold promoteSignal
  dsimp only
  split_ifs with h1 h2 h3 h2 h3 <;> simp_all [stateIdx]

theorem promoteSignal_state_cases (cfg : ASConfig) (cool : JsMap Int) (now : Int)
    (sig : SignalCandidate) :
    (promoteSignal cfg cool now sig).1.state = sig.state ∨
    (promoteSignal cfg cool now sig).1.state = .CANDIDATE ∨
    (promoteSignal cfg cool now sig).1.state = .ACTIVE := by
  unfold promoteSignal
  dsimp only
  split_ifs <;> simp

theorem promoteSignal_fields (cfg : ASConfig) (cool : JsMap Int) (now : Int)
    (sig : SignalCandidate) :
    (promoteSignal cfg cool now sig).1.id = sig.id ∧
    (promoteSignal cfg cool now sig).1.confidence = sig.confidence ∧
    (promoteSignal cfg cool now sig).1.minute = sig.minute ∧
    (promoteSignal cfg cool now sig).1.liquidityOk = sig.liquidityOk ∧
    (promoteSignal cfg cool now sig).1.reasoning = sig.reasoning ∧
    (promoteSignal cfg cool now sig).1.meta = sig.meta ∧
    (promoteSignal cfg cool now sig).1.createdTs = sig.createdTs := by
  unfold promoteSignal
  dsimp only
  split_ifs <;> simp

theorem promoteSignal_cooldown (cfg : ASConfig) (cool : JsMap Int) (now : Int)
    (sig : SignalCandidate) :
    (promoteSignal cfg cool now sig).2 = cool ∨
    ((promoteSignal cfg cool now sig).2 = alSet cool sig.id now ∧
      isDeduplicated cfg cool sig.id now = true ∧
      (promoteSignal cfg cool now sig).1.state = .ACTIVE) := by
  unfold promoteSignal
  dsimp only
  split_ifs with h1 h2 h3 h2 h3 <;> simp_all

theorem mergedOf_fields (st : ASState) (now : Int) (c : SignalCandidate) :
    (mergedOf st now c).id = c.id ∧
    (mergedOf st now c).confidence = c.confidence ∧
    (mergedOf st now c).minute = c.minute ∧
    (mergedOf st now c).liquidityOk = c.liquidityOk ∧
    (mergedOf st now c).reasoning = c.reasoning ∧
    (mergedOf st now c).meta = c.meta ∧
    (mergedOf st now c).lastUpdateTs = now := by
  unfold mergedOf
  cases st.signals.lookup c.id <;> simp [mergeExisting]

theorem mergedOf_carries (st : ASState) (now : Int) (c : SignalCandidate)
    (ex : SignalCandidate) (h : st.signals.lookup c.id = some ex) :
    (mergedOf st now c).state = ex.state ∧ (mergedOf st now c).createdTs = ex.createdTs := by
  unfold mergedOf
  rw [h]
  simp [mergeExisting]

theorem mergedOf_fresh (st : ASState) (now : Int) (c : SignalCandidate)
    (h : st.signals.lookup c.id = none) :
    (mergedOf st now c).state = c.state ∧ (mergedOf st now c).createdTs = c.createdTs := by
  unfold mergedOf
  rw [h]
  simp

theorem storedOf_fields (cfg : ASConfig) (st : ASState) (now : Int) (c : SignalCandidate) :
    (storedOf cfg st now c).confidence = c.confidence ∧
    (storedOf cfg st now c).minute = c.minute ∧
    (storedOf cfg st now c).liquidityOk = c.liquidityOk ∧
    (storedOf cfg st now c).reasoning = c.reasoning ∧
    (storedOf cfg st now c).meta = c.meta ∧
    (storedOf cfg st now c).createdTs = (mergedOf st now c).createdTs ∧
    stateIdx (mergedOf st now c).state ≤ stateIdx (storedOf cfg st now c).state := by
  obtain ⟨-, m2, m3, m4, m5, m6, -⟩ := mergedOf_fields st now c
  unfold storedOf
  split
  · obtain ⟨-, h2, h3, h4, h5, h6, h7⟩ :=
      promoteSignal_fields cfg st.cooldown now (mergedOf st now c)
    exact ⟨h2.trans m2, h3.trans m3, h4.trans m4, h5.trans m5, h6.trans m6, h7,
      promoteSignal_state_advance cfg st.cooldown now (mergedOf st now c)⟩
  · exact ⟨m2, m3, m4, m5, m6, rfl, le_refl _⟩

theorem storedOf_state_cases (cfg : ASConfig) (st : ASState) (now : Int)
    (c : SignalCandidate) :
    (storedOf cfg st now c).state = (mergedOf st now c).state ∨
    (storedOf cfg st now c).state = .CANDIDATE ∨
    (storedOf cfg st now c).state = .ACTIVE := by
  unfold storedOf
  split
  · exact promoteSignal_state_cases cfg st.cooldown now (mergedOf st now c)
  · exact Or.inl rfl

theorem processCandidate_signals_char (cfg : ASConfig) (now : Int) (st : ASState)
    (c : SignalCandidate) :
    (processCandidate cfg now st c).signals.lookup c.id = some (storedOf cfg st now c) ∧
    (∀ id, id ≠ c.id →
      (processCandidate cfg now st c).signals.lookup id = st.signals.lookup id) ∧
    (processCandidate cfg now st c).cooldown =
      (if (mergedOf st now c).state = .PRE ∨ (mergedOf st now c).state = .CANDIDATE then
        (promoteSignal cfg st.cooldown now (mergedOf st now c)).2
      else st.cooldown) := by
  unfold processCandidate storedOf mergedOf mergeExisting
  dsimp only
  cases hex : st.signals.lookup c.id with
  | some ex =>
    dsimp only
    split_ifs with hst
    · exact ⟨lookup_alSet_self _ _ _,
        fun id hid => by rw [lookup_alSet_ne _ _ _ _ hid, lookup_alSet_ne _ _ _ _ hid],
        rfl⟩
    · exact ⟨lookup_alSet_self _ _ _,
        fun id hid => by rw [lookup_alSet_ne _ _ _ _ hid], rfl⟩
  | none =>
    dsimp only
    split_ifs with hst
    · exact ⟨lookup_alSet_self _ _ _,
        fun id hid => by rw [lookup_alSet_ne _ _ _ _ hid, lookup_alSet_ne _ _ _ _ hid],
        rfl⟩
    · exact ⟨lookup_alSet_self _ _ _,
        fun id hid => by rw [lookup_alSet_ne _ _ _ _ hid], rfl⟩

theorem nodup_mapKeysInOrder : ∀ (l : List String), (mapKeysInOrder l).Nodup := by
  intro l
  induction l using mapKeysInOrder.induct with
  | case1 => simp [mapKeysInOrder]
  | case2 k rest ih =>
    rw [mapKeysInOrder]
    rw [List.nodup_cons]
    refine ⟨?_, ih⟩
    intro hk
    have := (mem_mapKeysInOrder _ k).mp hk
    simp at this

theorem promoteSignal_lastUpdate (cfg : ASConfig) (cool : JsMap Int) (now : Int)
    (sig : SignalCandidate) :
    (promoteSignal cfg cool now sig).1.lastUpdateTs = sig.lastUpdateTs ∨
    (promoteSignal cfg cool now sig).1.lastUpdateTs = now := by
  unfold promoteSignal
  dsimp only
  split_ifs <;> simp

theorem storedOf_lastUpdate (cfg : ASConfig) (st : ASState) (now : Int)
    (c : SignalCandidate) : (storedOf cfg st now c).lastUpdateTs = now := by
  obtain ⟨-, -, -, -, -, -, hm⟩ := mergedOf_fields st now c
  unfold storedOf
  split
  · rcases promoteSignal_lastUpdate cfg st.cooldown now (mergedOf st now c) with h | h
    · rw [h, hm]
    · exact h
  · exact hm

theorem mergedOf_not_expired (st : ASState) (now : Int) (c : SignalCandidate)
    (hst : ∀ p ∈ st.signals, p.2.state ≠ SigState.EXPIRED)
    (hc : c.state ≠ SigState.EXPIRED) :
    (mergedOf st now c).state ≠ SigState.EXPIRED := by
  unfold mergedOf
  cases hex : st.signals.lookup c.id with
  | some ex =>
    have : ex.state ≠ SigState.EXPIRED := hst (c.id, ex) (lookup_mem hex)
    simpa [mergeExisting] using this
  | none => simpa using hc

theorem storedOf_not_expired (cfg : ASConfig) (st : ASState) (now : Int)
    (c : SignalCandidate)
    (hst : ∀ p ∈ st.signals, p.2.state ≠ SigState.EXPIRED)
    (hc : c.state ≠ SigState.EXPIRED) :
    (storedOf cfg st now c).state ≠ SigState.EXPIRED := by
  rcases storedOf_state_cases cfg st now c with h | h | h <;> rw [h]
  · exact mergedOf_not_expired st now c hst hc
  · simp
  · simp

theorem processCandidate_keys_nodup (cfg : ASConfig) (now : Int) (st : ASState)
    (c : SignalCandidate) (h : (st.signals.map Prod.fst).Nodup) :
    ((processCandidate cfg now st c).signals.map Prod.fst).Nodup := by
  unfold processCandidate
  dsimp only
  cases hex : st.signals.lookup c.id <;> dsimp only <;> split_ifs <;>
    first
      | exact keys_alSet_nodup _ _ (keys_alSet_nodup _ _ h)
      | exact keys_alSet_nodup _ _ h

theorem processCandidate_no_expired (cfg : ASConfig) (now : Int) (st : ASState)
    (c : SignalCandidate)
    (hst : ∀ p ∈ st.signals, p.2.state ≠ SigState.EXPIRED)
    (hc : c.state ≠ SigState.EXPIRED) :
    ∀ p ∈ (processCandidate cfg now st c).signals, p.2.state ≠ SigState.EXPIRED := by
  intro p hp
  have hchar : ∀ q, q ∈ (processCandidate cfg now st c).signals →
      q ∈ st.signals ∨ q.2 = mergedOf st now c ∨ q.2 = storedOf cfg st now c := by
    intro q hq
    unfold processCandidate at hq
    dsimp only at hq
    revert hq
    unfold storedOf mergedOf mergeExisting
    cases hex : st.signals.lookup c.id <;> dsimp only <;> split_ifs <;> intro hq
    all_goals
      first
        | (rcases mem_alSet hq with hq' | hq'
           · rcases mem_alSet hq' with hq'' | hq''
             · exact Or.inl hq''
             · exact Or.inr (Or.inl (by rw [hq'']))
           · exact Or.inr (Or.inr (by rw [hq'])))
        | (rcases mem_alSet hq with hq' | hq'
           · exact Or.inl hq'
           · exact Or.inr (Or.inr (by rw [hq'])))
  rcases hchar p hp with h | h | h
  · exact hst p h
  · rw [h]
    exact mergedOf_not_expired st now c hst hc
  · rw [h]
    exact storedOf_not_expired cfg st now c hst hc

theorem isDeduplicated_congr (cfg : ASConfig) {c1 c2 : JsMap Int} (id : String)
    (now : Int) (h : c1.lookup id = c2.lookup id) :
    isDeduplicated cfg c1 id now = isDeduplicated cfg c2 id now := by
  unfold isDeduplicated
  rw [h]

theorem processCandidate_cooldown_lookup (cfg : ASConfig) (now : Int) (st : ASState)
    (c : SignalCandidate) (id : String) :
    (processCandidate cfg now st c).cooldown.lookup id = st.cooldown.lookup id ∨
    ((processCandidate cfg now st c).cooldown.lookup id = some now ∧
      isDeduplicated cfg st.cooldown id now = true) := by
  obtain ⟨-, -, h3⟩ := processCandidate_signals_char cfg now st c
  rw [h3]
  split_ifs with hm
  · rcases promoteSignal_cooldown cfg st.cooldown now (mergedOf st now c) with h | ⟨h, hd, -⟩
    · rw [h]
      exact Or.inl rfl
    · by_cases hid : id = (mergedOf st now c).id
      · subst hid
        rw [h, lookup_alSet_self]
        exact Or.inr ⟨rfl, hd⟩
      · rw [h, lookup_alSet_ne _ _ _ _ hid]
        exact Or.inl rfl
  · exact Or.inl rfl

theorem foldl_process_lookup (cfg : ASConfig) (now : Int) :
    ∀ (cands : List SignalCandidate) (st : ASState) (id : String) (s : SignalCandidate),
      st.signals.lookup id = some s →
      ∃ s₁, (cands.foldl (processCandidate cfg now) st).signals.lookup id = some s₁ ∧
        stateIdx s.state ≤ stateIdx s₁.state ∧ s₁.createdTs = s.createdTs := by
  intro cands
  induction cands with
  | nil => exact fun st id s h => ⟨s, h, le_refl _, rfl⟩
  | cons c cs ih =>
    intro st id s h
    simp only [List.foldl_cons]
    by_cases hid : id = c.id
    · subst hid
      obtain ⟨h1, -, -⟩ := processCandidate_signals_char cfg now st c
      obtain ⟨hms, hmc⟩ := mergedOf_carries st now c s h
      obtain ⟨-, -, -, -, -, hcr, hst⟩ := storedOf_fields cfg st now c
      obtain ⟨s₁, hs₁, hle, hcr₁⟩ := ih (processCandidate cfg now st c) c.id _ h1
      refine ⟨s₁, hs₁, ?_, ?_⟩
      · calc stateIdx s.state = stateIdx (mergedOf st now c).state := by rw [hms]
          _ ≤ stateIdx (storedOf cfg st now c).state := hst
          _ ≤ stateIdx s₁.state := hle
      · rw [hcr₁, hcr, hmc]
    · obtain ⟨-, h2, -⟩ := processCandidate_signals_char cfg now st c
      exact ih (processCandidate cfg now st c) id s (by rw [h2 id hid]; exact h)

theorem foldl_process_keys_nodup (cfg : ASConfig) (now : Int) :
    ∀ (cands : List SignalCandidate) (st : ASState),
      (st.signals.map Prod.fst).Nodup →
      (((cands.foldl (processCandidate cfg now) st).signals.map Prod.fst)).Nodup := by
  intro cands
  induction cands with
  | nil => exact fun st h => h
  | cons c cs ih =>
    intro st h
    simp only [List.foldl_cons]
    exact ih _ (processCandidate_keys_nodup cfg now st c h)

theorem foldl_process_no_expired (cfg : ASConfig) (now : Int) :
    ∀ (cands : List SignalCandidate) (st : ASState),
      (∀ p ∈ st.signals, p.2.state ≠ SigState.EXPIRED) →
      (∀ c ∈ cands, c.state ≠ SigState.EXPIRED) →
      ∀ p ∈ (cands.foldl (processCandidate cfg now) st).signals,
        p.2.state ≠ SigState.EXPIRED := by
  intro cands
  induction cands with
  | nil => exact fun st h _ => h
  | cons c cs ih =>
    intro st h hc
    simp only [List.foldl_cons]
    exact ih _ (processCandidate_no_expired cfg now st c h (hc c (by simp)))
      (fun d hd => hc d (by simp [hd]))

theorem foldl_process_cooldown (cfg : ASConfig) (now : Int) :
    ∀ (cands : List SignalCandidate) (st : ASState) (id : String),
      ((cands.foldl (processCandidate cfg now) st).cooldown.lookup id
        = st.cooldown.lookup id) ∨
      ((cands.foldl (processCandidate cfg now) st).cooldown.lookup id = some now ∧
        isDeduplicated cfg st.cooldown id now = true) := by
  intro cands
  induction cands with
  | nil => exact fun st id => Or.inl rfl
  | cons c cs ih =>
    intro st id
    simp only [List.foldl_cons]
    rcases processCandidate_cooldown_lookup cfg now st c id with hstep | ⟨hstep, hd⟩
    · rcases ih (processCandidate cfg now st c) id with hf | ⟨hf, hfd⟩
      · exact Or.inl (by rw [hf, hstep])
      · exact Or.inr ⟨hf, by rw [← isDeduplicated_congr cfg id now hstep]; exact hfd⟩
    · rcases ih (processCandidate cfg now st c) id with hf | ⟨hf, -⟩
      · exact Or.inr ⟨by rw [hf, hstep], hd⟩
      · exact Or.inr ⟨hf, hd⟩

/-- C2: the lifecycle only moves forward.  (i) `promoteSignal` never moves a
signal backwards in the order PRE < CANDIDATE < ACTIVE < EXPIRED; (ii) across
one `update()` call, an identity that stays in the live set never has its
state index decrease (so across any run of calls the observed states form a
subsequence of PRE, CANDIDATE, ACTIVE); (iii) an EXPIRED state is never
observable in the live set after `update()` (given the set and the incoming
candidates carried none, as produced by the engine, which creates candidates
at PRE): expiry marks the entity and deletes it in the same call; (iv) every
surviving entity has strictly positive remaining TTL. -/
theorem state_machine_forward_only (cfg : ASConfig) :
    (∀ (cool : JsMap Int) (now : Int) (sig : SignalCandidate),
      stateIdx sig.state ≤ stateIdx (promoteSignal cfg cool now sig).1.state) ∧
    (∀ (st : ASState) (now : Int) (cands : List SignalCandidate)
      (id : String) (s s' : SignalCandidate),
      (st.signals.map Prod.fst).Nodup →
      st.signals.lookup id = some s →
      (update cfg st now cands).1.signals.lookup id = some s' →
      stateIdx s.state ≤ stateIdx s'.state) ∧
    (∀ (st : ASState) (now : Int) (cands : List SignalCandidate)
      (id : String) (s' : SignalCandidate),
      (∀ p ∈ st.signals, p.2.state ≠ SigState.EXPIRED) →
      (∀ c ∈ cands, c.state ≠ SigState.EXPIRED) →
      (update cfg st now cands).1.signals.lookup id = some s' →
      s'.state ≠ SigState.EXPIRED) ∧
    (∀ (st : ASState) (now : Int) (cands : List SignalCandidate)
      (p : String × SignalCandidate),
      p ∈ (update cfg st now cands).1.signals → ¬ getTimeLeft now p.2 ≤ 0) := by
  refine ⟨promoteSignal_state_advance cfg, ?_, ?_, ?_⟩
  · intro st now cands id s s' hnd hs hs'
    have hnd' := foldl_process_keys_nodup cfg now cands st hnd
    have hs'' := (lookup_filter_nodup _ _ hnd' id s' hs').1
    obtain ⟨s₁, hs₁, hle, -⟩ := foldl_process_lookup cfg now cands st id s hs
    rw [hs₁] at hs''
    injection hs'' with hss
    rw [← hss]
    exact hle
  · intro st now cands id s' hst hc hs'
    have hmem := List.mem_of_mem_filter (lookup_mem hs')
    exact foldl_process_no_expired cfg now cands st hst hc (id, s') hmem
  · intro st now cands p hp
    have := List.of_mem_filter hp
    simpa using this

/-- The constructor-default configuration of `ActiveSignalService` (the
values documented at lines 33–58 of the source). -/
def defaultConfig : ASConfig :=
  { confidenceActive := 65, maxActive := 10, cooldownSeconds := 300,
    maturationWindow := 60, signalTTL := 15,
    over_under := ⟨true, 65, 2⟩, btts := ⟨true, 60, 2⟩, next_goal := ⟨true, 70, 1⟩ }

/-- A concrete stored candidate used by the witnesses. -/
def sigStored : SignalCandidate :=
  { id := "M1:over_25", matchId := "M1", market := "over_25", selection := "OVER",
    confidence := 80, minute := 30, liquidityOk := true, ttlSeconds := 900,
    state := .CANDIDATE, reasoning := "r", createdTs := 0, lastUpdateTs := 0,
    meta := [("k", "v")] }

/-- A concrete incoming candidate with the same identity and fresh values. -/
def sigIncoming : SignalCandidate :=
  { id := "M1:over_25", matchId := "M1", market := "over_25", selection := "OVER",
    confidence := 85, minute := 35, liquidityOk := true, ttlSeconds := 900,
    state := .PRE, reasoning := "r2", createdTs := 5, lastUpdateTs := 1,
    meta := [("k", "w")] }

/-- A concrete service state holding `sigStored` and a cooldown entry. -/
def stW : ASState := ⟨[("M1:over_25", sigStored)], [("M1:over_25", 1000)]⟩

theorem update_stW_eval :
    (update defaultConfig stW 400000 []).1.signals = [("M1:over_25", sigStored)] := by
  show expireSweep 400000 stW.signals = _
  have hkeep : ¬ getTimeLeft 400000 sigStored ≤ 0 := by
    unfold getTimeLeft sigStored
    norm_num
  unfold expireSweep stW
  dsimp only
  rw [List.filter_cons_of_pos (by rw [decide_eq_false hkeep]; rfl)]
  rfl

/-- C2 witness: a no-candidate update over a live set holding one CANDIDATE
signal with 500 s of TTL left keeps it with a non-decreasing state, no EXPIRED
entity is observable, and the survivor's TTL is positive. -/
theorem state_machine_forward_only_witness :
    stateIdx sigStored.state ≤ stateIdx sigStored.state ∧
    sigStored.state ≠ SigState.EXPIRED ∧
    ¬ getTimeLeft 400000 sigStored ≤ 0 :=
  ⟨(state_machine_forward_only defaultConfig).2.1 stW 400000 [] "M1:over_25"
      sigStored sigStored (by decide) (by decide) (by rw [update_stW_eval]; decide),
   (state_machine_forward_only defaultConfig).2.2.1 stW 400000 [] "M1:over_25"
      sigStored (by decide) (by simp) (by rw [update_stW_eval]; decide),
   (state_machine_forward_only defaultConfig).2.2.2 stW 400000 []
      ("M1:over_25", sigStored) (by rw [update_stW_eval]; decide)⟩

/-- C3: the cooldown map suppresses re-activation.  The entry for an identity
holds its last ACTIVE timestamp `t`; as long as `now − t` is still below
`cooldownSeconds` (in ms), no `update()` call can change that entry — in
particular no CANDIDATE→ACTIVE promotion of the same identity can occur, even
if the original entity expired and a brand-new candidate with the same
identity arrived (the live set `st.signals` is arbitrary here); and whenever
the entry does change, the change is an ACTIVE promotion that overwrites it
with the promotion time `now`, which `isDeduplicated` only allows once
`cooldownSeconds` have elapsed since `t`. -/
theorem cooldown_suppresses_reactivation (cfg : ASConfig) (st : ASState) (now : Int)
    (cands : List SignalCandidate) (id : String) (t : Int)
    (hcool : st.cooldown.lookup id = some t) (hpos : 0 < t) :
    (now - t < cfg.cooldownSeconds * 1000 →
      (update cfg st now cands).1.cooldown.lookup id = some t) ∧
    ((update cfg st now cands).1.cooldown.lookup id ≠ some t →
      (update cfg st now cands).1.cooldown.lookup id = some now ∧
      cfg.cooldownSeconds * 1000 ≤ now - t) := by
  have hchar : (update cfg st now cands).1.cooldown
      = (cands.foldl (processCandidate cfg now) st).cooldown := rfl
  rw [hchar]
  rcases foldl_process_cooldown cfg now cands st id with h | ⟨h, hd⟩
  · rw [h, hcool]
    exact ⟨fun _ => rfl, fun hne => absurd rfl hne⟩
  · unfold isDeduplicated at hd
    rw [hcool] at hd
    dsimp only at hd
    rw [if_neg (by omega)] at hd
    have hge : cfg.cooldownSeconds * 1000 ≤ now - t := by
      have := of_decide_eq_true hd
      omega
    constructor
    · intro hlt
      omega
    · intro _
      exact ⟨h, hge⟩

/-- C5: merge semantics of `update()` for an identity already in the live set.
(i) After processing such a candidate, the stored signal carries the original
`createdTs` and the previously stored state (advanced at most by the same
call's forward promotion), while confidence, minute, liquidity, reasoning and
meta are the incoming candidate's new values and `lastUpdateTs` is stamped
with the call time (`createdTs` is not reset).  (ii) Across a whole `update()`
call, the `createdTs` of any identity that remains in the live set never
changes. -/
theorem update_merge_semantics (cfg : ASConfig) :
    (∀ (now : Int) (st : ASState) (cand existing : SignalCandidate),
      st.signals.lookup cand.id = some existing →
      ∃ s', (processCandidate cfg now st cand).signals.lookup cand.id = some s' ∧
        s'.createdTs = existing.createdTs ∧ s'.confidence = cand.confidence ∧
        s'.minute = cand.minute ∧ s'.liquidityOk = cand.liquidityOk ∧
        s'.reasoning = cand.reasoning ∧ s'.meta = cand.meta ∧
        s'.lastUpdateTs = now ∧ stateIdx existing.state ≤ stateIdx s'.state) ∧
    (∀ (st : ASState) (now : Int) (cands : List SignalCandidate)
      (id : String) (s s' : SignalCandidate),
      (st.signals.map Prod.fst).Nodup →
      st.signals.lookup id = some s →
      (update cfg st now cands).1.signals.lookup id = some s' →
      s'.createdTs = s.createdTs) := by
  constructor
  · intro now st cand existing hex
    obtain ⟨h1, -, -⟩ := processCandidate_signals_char cfg now st cand
    obtain ⟨hms, hmc⟩ := mergedOf_carries st now cand existing hex
    obtain ⟨f1, f2, f3, f4, f5, f6, f7⟩ := storedOf_fields cfg st now cand
    refine ⟨storedOf cfg st now cand, h1, ?_, f1, f2, f3, f4, f5,
      storedOf_lastUpdate cfg st now cand, ?_⟩
    · rw [f6, hmc]
    · rw [← hms]
      exact f7
  · intro st now cands id s s' hnd hs hs'
    have hnd' := foldl_process_keys_nodup cfg now cands st hnd
    have hs'' := (lookup_filter_nodup _ _ hnd' id s' hs').1
    obtain ⟨s₁, hs₁, -, hcr⟩ := foldl_process_lookup cfg now cands st id s hs
    rw [hs₁] at hs''
    injection hs'' with hss
    rw [← hss]
    exact hcr

/-- One sorted market-bucket of a match group: the signals of bucket `b`, in
priority order. -/
def bucketOf (now : Int) (ms : List SignalCandidate) (b : String) :
    List SignalCandidate :=
  (ms.mergeSort (priorityLe now)).filter (fun s => getMarketType s.market == b)

/-- The sorted market-bucket group of one match: the ACTIVE signals of
`mid` in bucket `b`, ordered by priority — the list the per-match stage of
`update()`/`getSnapshot()` truncates. -/
def bucketGroup (now : Int) (signals : JsMap SignalCandidate) (mid b : String) :
    List SignalCandidate :=
  bucketOf now ((activesOf signals).filter (fun s => s.matchId == mid)) b

theorem priorityLe_trans (now : Int) : ∀ a b c : SignalCandidate,
    priorityLe now a b = true → priorityLe now b c = true →
    priorityLe now a c = true := by
  intro a b c hab hbc
  simp only [priorityLe, decide_eq_true_eq] at hab hbc ⊢
  rcases hab with h | ⟨h1, h2⟩ <;> rcases hbc with h' | ⟨h1', h2'⟩
  · exact Or.inl (lt_trans h h')
  · exact Or.inl (h1' ▸ h)
  · exact Or.inl (h1 ▸ h')
  · exact Or.inr ⟨h1.trans h1', le_trans h2 h2'⟩

theorem priorityLe_total (now : Int) : ∀ a b : SignalCandidate,
    (priorityLe now a b || priorityLe now b a) = true := by
  intro a b
  simp only [priorityLe, Bool.or_eq_true, decide_eq_true_eq]
  rcases lt_trichotomy (calculatePriority now a).1 (calculatePriority now b).1 with h | h | h
  · exact Or.inl (Or.inl h)
  · rcases le_total (calculatePriority now a).2 (calculatePriority now b).2 with h2 | h2
    · exact Or.inl (Or.inr ⟨h, h2⟩)
    · exact Or.inr (Or.inr ⟨h.symm, h2⟩)
  · exact Or.inr (Or.inl h)

theorem mem_limitMatchGroup (cfg : ASConfig) (now : Int) (ms : List SignalCandidate)
    (s : SignalCandidate) (h : s ∈ limitMatchGroup cfg now ms) : s ∈ ms := by
  unfold limitMatchGroup at h
  simp only [List.mem_flatMap] at h
  obtain ⟨b, -, hs⟩ := h
  have h1 := List.mem_of_mem_take hs
  have h2 := (List.mem_filter.mp h1).1
  exact (List.mergeSort_perm ms (priorityLe now)).mem_iff.mp h2

theorem filter_flatMap_key {α : Type} (key : α → String) (F : String → List α)
    (hF : ∀ k x, x ∈ F k → key x = k) :
    ∀ (ks : List String), ks.Nodup → ∀ k₀,
      (ks.flatMap F).filter (fun x => key x == k₀)
        = if k₀ ∈ ks then F k₀ else [] := by
  intro ks
  induction ks with
  | nil => intro _ k₀; simp
  | cons k ks ih =>
    intro hnd k₀
    simp only [List.nodup_cons] at hnd
    obtain ⟨hk, hnd⟩ := hnd
    simp only [List.flatMap_cons, List.filter_append]
    by_cases hk0 : k₀ = k
    · subst hk0
      have h1 : (F k₀).filter (fun x => key x == k₀) = F k₀ :=
        List.filter_eq_self.mpr (fun a ha => by simp [hF k₀ a ha])
      have h2 : (ks.flatMap F).filter (fun x => key x == k₀) = [] := by
        rw [ih hnd k₀, if_neg hk]
      rw [h1, h2, List.append_nil, if_pos (by simp)]
    · have h1 : (F k).filter (fun x => key x == k₀) = [] := by
        apply List.filter_eq_nil_iff.mpr
        intro a ha
        rw [hF k a ha]
        simp only [beq_iff_eq]
        exact fun hh => hk0 hh.symm
      rw [h1, List.nil_append, ih hnd k₀]
      by_cases hmem : k₀ ∈ ks
      · rw [if_pos hmem, if_pos (by simp [hmem])]
      · rw [if_neg hmem, if_neg (by simp [hk0, hmem])]

theorem limitMatchGroup_matchId (cfg : ASConfig) (now : Int)
    (actives : List SignalCandidate) (mid : String) (s : SignalCandidate)
    (h : s ∈ limitMatchGroup cfg now (actives.filter (fun s => s.matchId == mid))) :
    s.matchId = mid := by
  have h1 := mem_limitMatchGroup cfg now _ s h
  have h2 := (List.mem_filter.mp h1).2
  simpa using h2

/-- The `b`-bucket slice of one limited match group: exactly the top of the
sorted bucket, truncated to that market's per-match limit. -/
theorem limitMatchGroup_filter_eq (cfg : ASConfig) (now : Int)
    (ms : List SignalCandidate) (b : String) :
    (limitMatchGroup cfg now ms).filter (fun s => getMarketType s.market == b)
      = (bucketOf now ms b).take
          (getPerMatchLimit cfg (headMarket (bucketOf now ms b))) := by
  unfold limitMatchGroup bucketOf
  dsimp only
  rw [filter_flatMap_key (fun s => getMarketType s.market)
    (fun b => List.take
      (getPerMatchLimit cfg (headMarket
        (List.filter (fun s => getMarketType s.market == b)
          (ms.mergeSort (priorityLe now)))))
      (List.filter (fun s => getMarketType s.market == b)
        (ms.mergeSort (priorityLe now))))
    (fun k x hx => by
      have h1 := List.mem_of_mem_take hx
      have h2 := (List.mem_filter.mp h1).2
      simpa using h2)
    _ (nodup_mapKeysInOrder _) b]
  by_cases hb : b ∈ mapKeysInOrder
      ((ms.mergeSort (priorityLe now)).map (fun s => getMarketType s.market))
  · rw [if_pos hb]
  · rw [if_neg hb]
    have hempty : (ms.mergeSort (priorityLe now)).filter
        (fun s => getMarketType s.market == b) = [] := by
      apply List.filter_eq_nil_iff.mpr
      intro a ha
      simp only [beq_iff_eq]
      intro hab
      exact hb ((mem_mapKeysInOrder _ b).mpr (List.mem_map.mpr ⟨a, ha, hab⟩))
    rw [hempty, List.take_nil]

/-- The (mid, b)-slice of `limitedSignals`: exactly the top of the sorted
bucket group, truncated to that market's per-match limit. -/
theorem limitedSignals_filter_eq (cfg : ASConfig) (now : Int)
    (signals : JsMap SignalCandidate) (mid b : String) :
    (limitedSignals cfg now signals).filter
        (fun s => s.matchId == mid && (getMarketType s.market == b))
      = (bucketGroup now signals mid b).take
          (getPerMatchLimit cfg (headMarket (bucketGroup now signals mid b))) := by
  have hsplit : (limitedSignals cfg now signals).filter
      (fun s => s.matchId == mid && (getMarketType s.market == b))
      = ((limitedSignals cfg now signals).filter (fun s => s.matchId == mid)).filter
          (fun s => getMarketType s.market == b) := by
    rw [List.filter_filter]
    exact List.filter_congr (fun s _ => by rw [Bool.and_comm])
  rw [hsplit]
  unfold limitedSignals
  rw [filter_flatMap_key (fun s => s.matchId)
    (fun mid => limitMatchGroup cfg now ((activesOf signals).filter
      (fun s => s.matchId == mid)))
    (fun k x hx => limitMatchGroup_matchId cfg now _ k x hx)
    _ (nodup_mapKeysInOrder _) mid]
  by_cases hmid : mid ∈ mapKeysInOrder ((activesOf signals).map (fun s => s.matchId))
  · rw [if_pos hmid]
    exact limitMatchGroup_filter_eq cfg now _ b
  · rw [if_neg hmid]
    have hempty : (activesOf signals).filter (fun s => s.matchId == mid) = [] := by
      apply List.filter_eq_nil_iff.mpr
      intro a ha
      simp only [beq_iff_eq]
      intro hab
      exact hmid ((mem_mapKeysInOrder _ mid).mpr
        (List.mem_map.mpr ⟨a, ha, hab⟩))
    have hempty2 : bucketGroup now signals mid b = [] := by
      unfold bucketGroup bucketOf
      rw [hempty]
      simp
    rw [hempty2, List.take_nil]
    rfl

/-- C4: `update()` and `getSnapshot()` agree on the selected active view, and
the view is the per-match, per-bucket capped, priority-ordered selection.
Conjuncts: (1) the duplicated snapshot pipeline selects the same signals in
the same order as `update()`'s; (2) the returned list is capped at
`maxActive`; (3) it is globally sorted by priority (confidence descending,
remaining TTL ascending); and for every match `mid` and bucket `b`:
(4) the bucket group itself is priority-sorted; (5) the bucket's contribution
to `limitedSignals` is exactly the first `maxSignalsPerMatch` of that sorted
group; (6) the sorted group is a permutation of all ACTIVE signals of that
match and bucket; (7) every selected signal has priority at least as good as
every dropped one; (8) hence the returned list never contains more than the
per-match limit for any match/bucket. -/
theorem update_snapshot_selection (cfg : ASConfig) (now : Int)
    (signals : JsMap SignalCandidate) :
    snapshotSelect cfg now signals = updateSelect cfg now signals ∧
    (updateSelect cfg now signals).length ≤ cfg.maxActive ∧
    (updateSelect cfg now signals).Pairwise
      (fun a b => priorityLe now a b = true) ∧
    ∀ mid b,
      (bucketGroup now signals mid b).Pairwise
        (fun a b => priorityLe now a b = true) ∧
      (limitedSignals cfg now signals).filter
          (fun s => s.matchId == mid && (getMarketType s.market == b))
        = (bucketGroup now signals mid b).take
            (getPerMatchLimit cfg (headMarket (bucketGroup now signals mid b))) ∧
      (bucketGroup now signals mid b).Perm
        ((activesOf signals).filter
          (fun s => s.matchId == mid && (getMarketType s.market == b))) ∧
      (∀ s ∈ (bucketGroup now signals mid b).take
          (getPerMatchLimit cfg (headMarket (bucketGroup now signals mid b))),
        ∀ d ∈ (bucketGroup now signals mid b).drop
          (getPerMatchLimit cfg (headMarket (bucketGroup now signals mid b))),
        priorityLe now s d = true) ∧
      (updateSelect cfg now signals).countP
          (fun s => s.matchId == mid && (getMarketType s.market == b))
        ≤ getPerMatchLimit cfg (headMarket (bucketGroup now signals mid b)) := by
  have htrans := priorityLe_trans now
  have htotal := priorityLe_total now
  refine ⟨?_, ?_, ?_, ?_⟩
  · rfl
  · unfold updateSelect
    rw [List.length_take]
    exact min_le_left _ _
  · unfold updateSelect
    exact List.Pairwise.sublist (List.take_sublist _ _)
      (List.sorted_mergeSort htrans htotal (limitedSignals cfg now signals))
  · intro mid b
    have hsorted : (bucketGroup now signals mid b).Pairwise
        (fun a b => priorityLe now a b = true) := by
      unfold bucketGroup bucketOf
      exact List.Pairwise.filter _
        (List.sorted_mergeSort htrans htotal
          ((activesOf signals).filter (fun s => s.matchId == mid)))
    refine ⟨hsorted, limitedSignals_filter_eq cfg now signals mid b, ?_, ?_, ?_⟩
    · have hperm : (bucketGroup now signals mid b).Perm
          (((activesOf signals).filter (fun s => s.matchId == mid)).filter
            (fun s => getMarketType s.market == b)) := by
        unfold bucketGroup bucketOf
        exact List.Perm.filter _ (List.mergeSort_perm _ _)
      refine hperm.trans ?_
      rw [List.filter_filter]
      exact List.Perm.of_eq (List.filter_congr (fun s _ => by rw [Bool.and_comm]))
    · intro s hs d hd
      have hp : ((bucketGroup now signals mid b).take
            (getPerMatchLimit cfg (headMarket (bucketGroup now signals mid b))) ++
          (bucketGroup now signals mid b).drop
            (getPerMatchLimit cfg (headMarket (bucketGroup now signals mid b)))).Pairwise
          (fun a b => priorityLe now a b = true) := by
        rw [List.take_append_drop]
        exact hsorted
      exact (List.pairwise_append.mp hp).2.2 s hs d hd
    · have h1 : (updateSelect cfg now signals).countP
          (fun s => s.matchId == mid && (getMarketType s.market == b))
          ≤ ((limitedSignals cfg now signals).mergeSort (priorityLe now)).countP
            (fun s => s.matchId == mid && (getMarketType s.market == b)) :=
        List.Sublist.countP_le _ (List.take_sublist _ _)
      have h2 : ((limitedSignals cfg now signals).mergeSort (priorityLe now)).countP
          (fun s => s.matchId == mid && (getMarketType s.market == b))
          = (limitedSignals cfg now signals).countP
            (fun s => s.matchId == mid && (getMarketType s.market == b)) :=
        List.Perm.countP_eq _ (List.mergeSort_perm _ _)
      have h3 : (limitedSignals cfg now signals).countP
          (fun s => s.matchId == mid && (getMarketType s.market == b))
          ≤ getPerMatchLimit cfg (headMarket (bucketGroup now signals mid b)) := by
        rw [List.countP_eq_length_filter,
          limitedSignals_filter_eq cfg now signals mid b, List.length_take]
        exact min_le_left _ _
      omega

/-- C4 witness: the selection agreement applied to a concrete call. -/
theorem update_snapshot_selection_witness :
    snapshotSelect defaultConfig 400000 stW.signals
      = updateSelect defaultConfig 400000 stW.signals :=
  (update_snapshot_selection defaultConfig 400000 stW.signals).1

/-- C3 witness: with a cooldown entry recorded at t = 1000 ms and a call at
now = 200000 ms (window 300 s not yet elapsed), the entry survives an update
untouched — the identity cannot re-activate. -/
theorem cooldown_suppresses_reactivation_witness :
    (update defaultConfig ⟨[], [("M1:over_25", 1000)]⟩ 200000 []).1.cooldown.lookup
        "M1:over_25" = some 1000 :=
  (cooldown_suppresses_reactivation defaultConfig ⟨[], [("M1:over_25", 1000)]⟩
    200000 [] "M1:over_25" 1000 (by decide) (by decide)).1 (by decide)

/-- C5 witness: merging the concrete incoming candidate over the stored one
keeps the original creation timestamp and overwrites the mutable fields; a
no-candidate update keeps `createdTs` unchanged. -/
theorem update_merge_semantics_witness :
    (∃ s', (processCandidate defaultConfig 400000 stW sigIncoming).signals.lookup
        sigIncoming.id = some s' ∧
      s'.createdTs = sigStored.createdTs ∧ s'.confidence = sigIncoming.confidence ∧
      s'.minute = sigIncoming.minute ∧ s'.liquidityOk = sigIncoming.liquidityOk ∧
      s'.reasoning = sigIncoming.reasoning ∧ s'.meta = sigIncoming.meta ∧
      s'.lastUpdateTs = 400000 ∧ stateIdx sigStored.state ≤ stateIdx s'.state) ∧
    sigStored.createdTs = sigStored.createdTs :=
  ⟨(update_merge_semantics defaultConfig).1 400000 stW sigIncoming sigStored (by decide),
   (update_merge_semantics defaultConfig).2 stW 400000 [] "M1:over_25"
      sigStored sigStored (by decide) (by decide) (by rw [update_stW_eval]; decide)⟩

end ActiveSignalService

end ScoutCore
